import Mathlib

/-!
A shallow embedding of the discrete Bayesian-network inference code
(`bnetbase.py` and `solution.py`) together with theorems checking the
natural-language specification against it.

Modelling conventions:
* Python floats are modelled by `ℚ` (the code performs only field
  arithmetic, so exact rationals capture its algebra).
* A Python `Variable` object is a record carrying an object identity
  (`id`), its `name` and its domain list `dom`; Python compares
  `Variable` objects by identity, which structural equality models as
  long as distinct objects receive distinct `id`s.  The mutable
  per-object slots (`evidence_index`, `assignment_index`, and the
  attribute created by the buggy `reset_evidence` method) are carried
  in a separate explicit state record `VarState`.
* A `Factor` holds its ordered `scope` and the dense table `values`;
  `get_value` reproduces the mixed-radix indexing of the Python code.
  The table-building loops of `multiply_factors`, `restrict_factor`
  and `sum_out_variable` enumerate assignments in lexicographic order
  (nested loops over each domain in declared order, exactly
  `itertools.product`) and write each row at its mixed-radix index,
  which is precisely that row's position in the lexicographic
  enumeration; the embedding therefore builds the table directly as a
  map over the enumeration `combos scope`.
* Operations that can raise a Python exception (`list.remove` on a
  missing element, `list.index` on a missing value, popping from an
  empty list, division by zero, a `KeyError` on a dict, an unbound
  local) are `Option`-valued, with `none` for the raising run.
-/

namespace BNet

/-- A Bayes-net variable: object identity, name, ordered domain. -/
structure Variable where
  id : Nat
  name : String
  dom : List String
deriving DecidableEq, Repr

/-- The mutable slots living on a Python `Variable` object.
`reset_evidence_attr` models the instance attribute that the buggy
`reset_evidence` method creates (shadowing the method itself). -/
structure VarState where
  evidence_index : Int
  assignment_index : Int
  reset_evidence_attr : Option Int
deriving DecidableEq, Repr

/-- `Variable.domain_size` from `bnetbase.py`. -/
def Variable.domain_size (v : Variable) : Nat := v.dom.length

/-- `Variable.value_index` from `bnetbase.py`: `self.dom.index(value)`.
(Python raises `ValueError` when the value is absent; `indexOf` then
returns `dom.length`, and every theorem below evaluates it only on
domain members.) -/
def Variable.value_index (v : Variable) (value : String) : Nat :=
  v.dom.indexOf value

/-- `Variable.set_evidence`: stores the domain index of `val`. -/
def Variable.set_evidence (v : Variable) (s : VarState) (val : String) : VarState :=
  { s with evidence_index := (v.value_index val : Int) }

/-- `Variable.get_evidence`: the stored evidence value, or `None`. -/
def Variable.get_evidence (v : Variable) (s : VarState) : Option String :=
  if 0 ≤ s.evidence_index then (v.dom.get? s.evidence_index.toNat) else none

/-- `Variable.reset_evidence` from `bnetbase.py`, exactly as written:
`self.reset_evidence = -1` assigns `-1` to an instance attribute named
`reset_evidence`; it does not touch `evidence_index`. -/
def Variable.reset_evidence (s : VarState) : VarState :=
  { s with reset_evidence_attr := some (-1) }

/-- The per-variable effect of `BN.reset_variables`:
`v.evidence_index = -1; v.assignment_index = -1`. -/
def BN.reset_variables_state (s : VarState) : VarState :=
  { s with evidence_index := -1, assignment_index := -1 }

/-- A factor: name, ordered scope, dense value table. -/
structure Factor where
  name : String
  scope : List Variable
  values : List ℚ
deriving DecidableEq, Repr

/-- The mixed-radix index loop shared by `Factor.get_value`,
`add_values` and `add_value_at_current_assignment`:
`index = index * v.domain_size() + v.value_index(vals[0])` over the
scope.  (The arm for exhausted values models the `IndexError` case,
which no theorem below reaches.) -/
def encodeIndexAux : List Variable → List String → Nat → Nat
  | [], _, index => index
  | _ :: _, [], index => index
  | v :: rest, s :: vals, index =>
      encodeIndexAux rest vals (index * v.domain_size + v.value_index s)

/-- Mixed-radix index of an ordered value tuple, starting from 0. -/
def encodeIndex (scope : List Variable) (vals : List String) : Nat :=
  encodeIndexAux scope vals 0

/-- `Factor.get_value` from `bnetbase.py`. -/
def Factor.get_value (f : Factor) (variable_values : List String) : ℚ :=
  f.values.getD (encodeIndex f.scope variable_values) 0

/-- `Factor.get_scope` returns a copy of the scope. -/
def Factor.get_scope (f : Factor) : List Variable := f.scope

/-- The product of the domain sizes of a scope (the table size computed
by the `Factor` constructor). -/
def prodSize (scope : List Variable) : Nat :=
  (scope.map Variable.domain_size).prod

/-- All value tuples over a scope in lexicographic order: the
enumeration order of `itertools.product(*[v.domain() for v in scope])`
and of the recursive nested loops in `bnetbase.py`. -/
def combos : List Variable → List (List String)
  | [] => [[]]
  | v :: rest => (v.dom.map (fun val => (combos rest).map (fun t => val :: t))).flatten

/-- A Bayes net: a wrapper around lists of variables and factors. -/
structure BN where
  name : String
  Variables : List Variable
  Factors : List Factor
deriving DecidableEq, Repr

/-- `BN.factors` returns a copy of the factor list. -/
def BN.factors (n : BN) : List Factor := n.Factors

/-- `BN.variables` returns a copy of the variable list. -/
def BN.variables (n : BN) : List Variable := n.Variables

/-- `normalize` from `bnetbase.py`. -/
def normalize (nums : List ℚ) : List ℚ :=
  let s := nums.sum
  if s = 0 then List.replicate nums.length 0
  else nums.map (fun n => n / s)

/-- The tuple over `scope` obtained from a tuple `t` over
`scope` minus `var` by inserting `value` at each position equal to
`var`: this is the value tuple read off the variables' assignment slots
inside `restrict_factor`/`sum_out_variable`, where `var` carries the
fixed assignment `value` and the remaining scope variables carry the
values enumerated by the nested loops (in scope order). -/
def extendTuple : List Variable → Variable → String → List String → List String
  | [], _, _, _ => []
  | w :: rest, var, value, t =>
      if w = var then value :: extendTuple rest var value t
      else
        match t with
        | [] => []
        | s :: t' => s :: extendTuple rest var value t'

/-- `restrict_factor` from `bnetbase.py`.  `scope.remove(var)` raises
`ValueError` when `var` is not in the scope (modelled by `none`), and
`var.set_assignment(value)` raises when `value` is not in `var`'s
domain (also `none`).  Otherwise the nested enumeration writes, at each
tuple `t` over the reduced scope, the parent factor's value at `t`
extended with `var = value`. -/
def restrict_factor (f : Factor) (var : Variable) (value : String) : Option Factor :=
  if var ∈ f.scope then
    if value ∈ var.dom then
      some { name := f.name, scope := f.scope.erase var,
             values := (combos (f.scope.erase var)).map
               (fun t => f.get_value (extendTuple f.scope var value t)) }
    else none
  else none

/-- `sum_out_variable` from `bnetbase.py`.  `scope.remove(var)` raises
when `var` is absent; otherwise the nested enumeration over the reduced
scope writes, at each tuple `t`, the sum over `var`'s domain of the
parent factor's value at `t` extended with each value of `var`. -/
def sum_out_variable (f : Factor) (var : Variable) : Option Factor :=
  if var ∈ f.scope then
    some { name := f.name, scope := f.scope.erase var,
           values := (combos (f.scope.erase var)).map
             (fun t => (var.dom.map
               (fun val => f.get_value (extendTuple f.scope var val t))).sum) }
  else none

/-- One pairwise step of `multiply_factors` from `solution.py`:
`factor1` and `factor2` are the two popped factors, the new scope is
`scope2 + [v for v in scope1 if v not in scope2]`, and each row of the
new table multiplies the operands' values at the sub-tuples selected
via `new_scp.index`. -/
def multiply_pair (factor1 factor2 : Factor) : Factor :=
  let scope1 := factor1.get_scope
  let scope2 := factor2.get_scope
  let new_scp := scope2 ++ scope1.filter (fun v => decide (v ∉ scope2))
  { name := "Factor", scope := new_scp,
    values := (combos new_scp).map (fun comb =>
      factor1.get_value (scope1.map (fun v => comb.getD (new_scp.indexOf v) (""))) *
      factor2.get_value (scope2.map (fun v => comb.getD (new_scp.indexOf v) (""))))}

/-- The `while` loop of `multiply_factors`, viewed from the tail of the
Python list (Python pops the last two factors and appends their product
at the end, so on the reversed list it combines the first two and puts
the product back at the head).  An empty list models the `IndexError`
of popping from an empty list. -/
def mult_loop : List Factor → Option Factor
  | [] => none
  | [f] => some f
  | f1 :: f2 :: rest => mult_loop (multiply_pair f1 f2 :: rest)
termination_by l => l.length

/-- `multiply_factors` from `solution.py`. -/
def multiply_factors (Factors : List Factor) : Option Factor :=
  mult_loop Factors.reverse

/-- One `count_dct.setdefault(scope, 0); count_dct[scope] += 1` step of
`min_fill_ordering`: a Python dict is an insertion-ordered association
list, so a missing key is appended with count 1 and an existing key is
incremented in place. -/
def bump (dct : List (Variable × Nat)) (v : Variable) : List (Variable × Nat) :=
  if v ∈ dct.map Prod.fst then
    dct.map (fun p => if p.1 = v then (p.1, p.2 + 1) else p)
  else dct ++ [(v, 1)]

/-- The counting loops of `min_fill_ordering`: for every factor, for
every scope entry other than the query variable, bump its count. -/
def count_vars (Factors : List Factor) (QueryVar : Variable) : List (Variable × Nat) :=
  Factors.foldl
    (fun dct f => f.get_scope.foldl
      (fun d s => if s = QueryVar then d else bump d s) dct) []

/-- Stable insertion of one entry: the new entry goes after every
existing entry whose count is less than or equal to its own. -/
def insertByCount (x : Variable × Nat) : List (Variable × Nat) → List (Variable × Nat)
  | [] => [x]
  | y :: ys => if y.2 ≤ x.2 then y :: insertByCount x ys else x :: y :: ys

/-- `sorted(count_dct.items(), key=lambda x: x[1])`: Python's `sorted`
is a stable sort by the count; stable insertion sort is extensionally
the same function. -/
def sortByCount (l : List (Variable × Nat)) : List (Variable × Nat) :=
  l.foldl (fun acc x => insertByCount x acc) []

/-- `min_fill_ordering` from `solution.py`. -/
def min_fill_ordering (Factors : List Factor) (QueryVar : Variable) : List Variable :=
  (sortByCount (count_vars Factors QueryVar)).map Prod.fst

/-- The evidence-application pass of `VE` for a single evidence
variable (the inner `while` loop): every factor whose scope mentions
the variable is replaced in place by its restriction to the supplied
evidence value. -/
def applyEvidence (factors : List Factor) (ev : Variable) (val : String) :
    Option (List Factor) :=
  factors.mapM (fun factor =>
    if ev ∈ factor.get_scope then restrict_factor factor ev val else some factor)

/-- `VE_cagan31` from `solution.py`: gather the factors mentioning
`var`, and if there are any, replace them by the sum-out of their
product. -/
def VE_cagan31 (factors : List Factor) (var : Variable) : Option (List Factor) :=
  let lst := factors.filter (fun factor => decide (var ∈ factor.get_scope))
  if lst = [] then some factors
  else do
    let multiplied_factor ← multiply_factors lst
    let new_lst := factors.filter (fun factor => decide (factor ∉ lst))
    let summed ← sum_out_variable multiplied_factor var
    some (new_lst ++ [summed])

/-- `VE` from `solution.py`.  The mutable evidence slots are passed
explicitly: each evidence variable comes paired with the value its
`set_evidence` call stored (the value `ev.get_evidence()` returns
inside the loop). -/
def VE (Net : BN) (QueryVar : Variable) (EvidenceVars : List (Variable × String)) :
    Option (List ℚ) := do
  let factors₀ := Net.factors
  let factors₁ ← EvidenceVars.foldlM (fun fs p => applyEvidence fs p.1 p.2) factors₀
  let ordered := min_fill_ordering factors₁ QueryVar
  let factors₂ ← ordered.foldlM VE_cagan31 factors₁
  let last_factor ← mult_loop factors₂.reverse
  some (normalize (QueryVar.dom.map (fun dom => last_factor.get_value [dom])))

/-- First-encounter order: the scan of a variable stream keeping the
first occurrence of each variable (the key order of a Python dict
filled by that stream). -/
def firstSeenFrom : List Variable → List Variable → List Variable
  | [], acc => acc
  | v :: rest, acc => firstSeenFrom rest (if v ∈ acc then acc else acc ++ [v])

/-- First-encounter order starting from nothing seen. -/
def firstSeen (xs : List Variable) : List Variable := firstSeenFrom xs []

/-- The value of a working set of factors under a joint assignment:
the product of each factor's value at the assignment restricted to its
own scope. -/
def evalFactors (FS : List Factor) (a : Variable → String) : ℚ :=
  (FS.map (fun f => f.get_value (f.scope.map a))).prod

/-- Pointwise update of an assignment. -/
def upd (a : Variable → String) (v : Variable) (d : String) : Variable → String :=
  fun w => if w = v then d else a w

/-- Sum of `g` over all extensions of `a` assigning each listed
variable every value of its domain. -/
def sumOver : List Variable → ((Variable → String) → ℚ) → (Variable → String) → ℚ
  | [], g, a => g a
  | v :: rest, g, a => (v.dom.map (fun d => sumOver rest g (upd a v d))).sum

/-- Modelled from the spec: the brute-force reference marginal for a
network with no evidence ("directly summing out all other Variables
from the full joint (brute-force product of all factors)"): form the
product of all the network's factors, sum out every variable of the
joint other than the query variable, read the value at each
query-domain value in declared order, and normalize. -/
def bruteForceMarginal (Net : BN) (Q : Variable) : List ℚ :=
  normalize (Q.dom.map (fun d =>
    sumOver ((firstSeen (Net.Factors.flatMap Factor.scope)).filter (fun v => decide (v ≠ Q)))
      (evalFactors Net.Factors) (upd (fun _ => ("")) Q d)))

/-- The per-variable state threaded through one sampling round of
`SampleBN`: the round's assignment dict `dct` (name-keyed, latest
binding first; a value of `none` models a non-string entry such as
Python's `None` or the integer sentinel `0`), the local `curr_factor`
(`none` while still unbound), the current value of the reused loop
index `i`, and the position `k` of the next number in the random
stream. -/
structure RoundState where
  dct : List (String × Option String)
  cf : Option Factor
  i : Nat
  k : Nat
deriving DecidableEq, Repr

/-- What one round of `SampleBN` produces: the round's importance
weight, the leftover value of the loop index `i`, the dict entry for
the query variable, and the carried-over `curr_factor` and stream
position. -/
structure RoundResult where
  w : ℚ
  i : Nat
  query : Option String
  cf : Option Factor
  k : Nat
deriving DecidableEq, Repr

/-- The running state of `SampleBN` across rounds. -/
structure SampleState where
  weights : List ℚ
  total : ℚ
  cf : Option Factor
  k : Nat
deriving DecidableEq, Repr

/-- The evidence-weighting loop at the top of each `SampleBN` round:
for every evidence variable, for every factor whose scope is exactly
that single variable, multiply the weight by the factor's value at the
evidence value. -/
def evidenceWeight (Net : BN) (EvidenceVars : List (Variable × String)) : ℚ :=
  EvidenceVars.foldl (fun w p =>
    Net.factors.foldl (fun w' factor =>
      if p.1 ∈ factor.get_scope ∧ factor.get_scope.length = 1
      then w' * factor.get_value [p.2] else w') w) 1

/-- The tuple handed to `curr_factor.get_value` when scoring candidate
value `val` for `vrbl` (the Python local named variable): the candidate for `vrbl` (the Python local named variable) itself and the
dict entry `dct[v.name]` for every other scope variable.  A missing
dict key (`KeyError`) or a non-string entry (`ValueError` inside
`value_index`) makes the round raise, modelled by `none`. -/
def buildComb (cf : Factor) (vrbl : Variable) (val : String)
    (dct : List (String × Option String)) : Option (List String) :=
  cf.get_scope.mapM (fun v =>
    if v = vrbl then some val else (dct.lookup v.name).join)

/-- The inverse-CDF selection loop: accumulate the normalized
probabilities in order and return the index at which the random number
is first reached or exceeded (`none` when the loop falls through,
leaving the integer sentinel `0` in `chosen_val`). -/
def chooseVal : List ℚ → ℚ → ℚ → Nat → Option Nat
  | [], _, _, _ => none
  | p :: rest, r, acc, i =>
      if r ≤ acc + p then some i else chooseVal rest r (acc + p) (i + 1)

/-- One iteration of the per-variable sampling loop of `SampleBN`.
Evidence variables are skipped.  Otherwise `curr_factor` becomes the
first network factor mentioning the variable (keeping its stale value
when none does; a still-unbound `curr_factor` is Python's `NameError`,
modelled by `none`), the candidate probabilities are computed and
normalized (`none` on a zero sum, Python's `ZeroDivisionError`), one
random number is consumed, and the chosen value (or the sentinel) is
stored in the dict under the variable's name. -/
def sampleVarStep (Net : BN) (EvidenceVars : List (Variable × String))
    (stream : Nat → ℚ) (st : RoundState) (vrbl : Variable) : Option RoundState :=
  if vrbl ∈ EvidenceVars.map Prod.fst then some st
  else
    match (Net.factors.find? (fun factor => decide (vrbl ∈ factor.get_scope))).orElse
        (fun _ => st.cf) with
    | none => none
    | some curr_factor => do
        let probs ← vrbl.dom.mapM (fun val =>
          (buildComb curr_factor vrbl val st.dct).map curr_factor.get_value)
        let prob_sum := probs.sum
        if prob_sum = 0 then none
        else
          let normalized_probs := probs.map (fun p => p / prob_sum)
          let random_num := stream st.k
          match chooseVal normalized_probs random_num 0 0 with
          | some j =>
              some { dct := (vrbl.name, some (vrbl.dom.getD j (""))) :: st.dct,
                     cf := some curr_factor, i := j, k := st.k + 1 }
          | none =>
              some { dct := (vrbl.name, none) :: st.dct,
                     cf := some curr_factor, i := normalized_probs.length - 1,
                     k := st.k + 1 }

/-- One round of `SampleBN`: compute the round's weight, seed the dict
with the evidence values (latest binding first, as a Python dict), run
the sampling loop over the network's variables starting with the loop
index `i` equal to the round number, and read the dict entry for the
query variable. -/
def sampleRound (Net : BN) (QueryVar : Variable)
    (EvidenceVars : List (Variable × String)) (stream : Nat → ℚ)
    (cf0 : Option Factor) (round k0 : Nat) : Option RoundResult := do
  let curr_weight := evidenceWeight Net EvidenceVars
  let dct0 := (EvidenceVars.map (fun p => (p.1.name, some p.2))).reverse
  let st ← Net.variables.foldlM (sampleVarStep Net EvidenceVars stream)
    { dct := dct0, cf := cf0, i := round, k := k0 }
  some { w := curr_weight, i := st.i, query := (st.dct.lookup QueryVar.name).join,
         cf := st.cf, k := st.k }

/-- Python truthiness of the dict entry read for the query variable:
`None`, the integer `0` and the empty string are falsy. -/
def truthy : Option String → Bool
  | none => false
  | some s => s ≠ ""

/-- The accumulation at the end of a `SampleBN` round, exactly as
written: when the query entry is truthy and equals some value of the
query variable's domain, the round's weight is added at index `i` of
`weights` — the leftover reused loop index, not the domain position of
the received value (`weights[i] += curr_weight` after
`for _, value in enumerate(QueryVar.domain())`).  An out-of-range `i`
is Python's `IndexError`, modelled by `none`.  The weight is always
added to the running total. -/
def accumulateRound (QueryVar : Variable) (s : SampleState) (r : RoundResult) :
    Option SampleState := do
  let weights ←
    if truthy r.query ∧ (r.query.getD ("")) ∈ QueryVar.dom then
      if r.i < s.weights.length
      then some (s.weights.set r.i (s.weights.getD r.i 0 + r.w))
      else none
    else some s.weights
  some { weights := weights, total := s.total + r.w, cf := r.cf, k := r.k }

/-- The round loop of `SampleBN`: `n` rounds remaining, `round` the
index of the next round. -/
def sampleLoop (Net : BN) (QueryVar : Variable)
    (EvidenceVars : List (Variable × String)) (stream : Nat → ℚ) :
    Nat → Nat → SampleState → Option SampleState
  | 0, _, s => some s
  | n + 1, round, s => do
      let r ← sampleRound Net QueryVar EvidenceVars stream s.cf round s.k
      let s' ← accumulateRound QueryVar s r
      sampleLoop Net QueryVar EvidenceVars stream n (round + 1) s'

/-- `SampleBN` from `solution.py`, with the calls to `random.random()`
replaced by an explicit stream of numbers in `[0,1)`.  After 1000
rounds each bucket is divided by the running total with no guard:
a zero total is Python's `ZeroDivisionError`, modelled by `none`
(reached as soon as there is at least one bucket). -/
def SampleBN (Net : BN) (QueryVar : Variable)
    (EvidenceVars : List (Variable × String)) (stream : Nat → ℚ) :
    Option (List ℚ) := do
  let s ← sampleLoop Net QueryVar EvidenceVars stream 1000 0
    { weights := List.replicate QueryVar.dom.length 0, total := 0, cf := none, k := 0 }
  s.weights.mapM (fun weight =>
    if s.total = 0 then none else some (weight / s.total))

/-! ### Indexing infrastructure: the mixed-radix index of a tuple is its
position in the lexicographic enumeration `combos`. -/

/-- A tuple matches a scope when it has one domain value per scope
variable, in order. -/
def InDom (scope : List Variable) (t : List String) : Prop :=
  List.Forall₂ (fun v s => s ∈ v.dom) scope t

theorem flatten_length_const {α β : Type} (g : α → List β) (B : Nat) :
    ∀ A : List α, (∀ a ∈ A, (g a).length = B) →
      (A.map g).flatten.length = A.length * B := by
  intro A
  induction A with
  | nil => simp
  | cons a A ih =>
      intro h
      simp only [List.map_cons, List.flatten_cons, List.length_append, List.length_cons]
      rw [h a (by simp), ih (fun x hx => h x (by simp [hx]))]
      ring

theorem combos_length : ∀ scope : List Variable, (combos scope).length = prodSize scope := by
  intro scope
  induction scope with
  | nil => simp [combos, prodSize]
  | cons v rest ih =>
      have hlen : ∀ val ∈ v.dom,
          (((combos rest).map (fun t => val :: t)).length) = prodSize rest := by
        intro val _; simp [ih]
      calc (combos (v :: rest)).length
          = v.dom.length * prodSize rest :=
            flatten_length_const (fun val => (combos rest).map (fun t => val :: t))
              (prodSize rest) v.dom hlen
        _ = prodSize (v :: rest) := by
            simp [prodSize, Variable.domain_size, Nat.mul_comm]

theorem encodeIndexAux_linear : ∀ (scope : List Variable) (vals : List String)
    (index : Nat), vals.length = scope.length →
    encodeIndexAux scope vals index = index * prodSize scope + encodeIndex scope vals := by
  intro scope
  induction scope with
  | nil =>
      intro vals index _
      simp [encodeIndexAux, encodeIndex, prodSize]
  | cons v rest ih =>
      intro vals index hlen
      match vals with
      | [] => simp at hlen
      | s :: vals =>
          have hl : vals.length = rest.length := by simpa using hlen
          simp only [encodeIndexAux, encodeIndex]
          rw [ih vals (index * v.domain_size + v.value_index s) hl,
            ih vals (0 * v.domain_size + v.value_index s) hl]
          have : prodSize (v :: rest) = v.domain_size * prodSize rest := by
            simp [prodSize]
          rw [this]
          ring

theorem encodeIndex_lt {scope : List Variable} {vals : List String}
    (h : InDom scope vals) : encodeIndex scope vals < prodSize scope := by
  induction h with
  | nil => simp [encodeIndex, encodeIndexAux, prodSize]
  | @cons v x rest xs hx _ ih =>
      have hlen : xs.length = rest.length :=
        (List.Forall₂.length_eq (by assumption)).symm
      have hidx : v.value_index x < v.domain_size :=
        List.indexOf_lt_length.mpr hx
      have hstep : encodeIndex (v :: rest) (x :: xs)
          = v.value_index x * prodSize rest + encodeIndex rest xs := by
        show encodeIndexAux rest xs (0 * v.domain_size + v.value_index x)
            = v.value_index x * prodSize rest + encodeIndex rest xs
        rw [encodeIndexAux_linear rest xs (0 * v.domain_size + v.value_index x) hlen]
        ring_nf
      rw [hstep]
      have h1 : v.value_index x * prodSize rest + encodeIndex rest xs
          < (v.value_index x + 1) * prodSize rest := by
        have := ih
        calc v.value_index x * prodSize rest + encodeIndex rest xs
            < v.value_index x * prodSize rest + prodSize rest := by omega
          _ = (v.value_index x + 1) * prodSize rest := by ring
      have h2 : (v.value_index x + 1) * prodSize rest ≤ v.domain_size * prodSize rest :=
        Nat.mul_le_mul_right _ (by omega)
      have h3 : prodSize (v :: rest) = v.domain_size * prodSize rest := by
        simp [prodSize]
      omega

theorem flatten_getElem? {α β : Type} (g : α → List β) (B : Nat) :
    ∀ (A : List α) (i j : Nat), (∀ a ∈ A, (g a).length = B) →
      (hi : i < A.length) → j < B →
      ((A.map g).flatten)[i * B + j]? = (g (A.get ⟨i, hi⟩))[j]? := by
  intro A
  induction A with
  | nil => intro i j _ hi _; simp at hi
  | cons a A ih =>
      intro i j h hi hj
      match i with
      | 0 =>
          simp only [List.map_cons, List.flatten_cons, Nat.zero_mul, Nat.zero_add]
          rw [List.getElem?_append]
          rw [if_pos (by rw [h a (by simp)]; exact hj)]
          rfl
      | i + 1 =>
          simp only [List.map_cons, List.flatten_cons]
          have hja : (g a).length ≤ (i + 1) * B + j := by
            rw [h a (by simp)]
            calc B ≤ (i + 1) * B := Nat.le_mul_of_pos_left B (Nat.succ_pos i)
              _ ≤ (i + 1) * B + j := by omega
          rw [List.getElem?_append_right hja, h a (by simp)]
          have harith : (i + 1) * B + j - B = i * B + j := by
            have : (i + 1) * B = i * B + B := by ring
            omega
          rw [harith]
          have hi' : i < A.length := by simpa using hi
          rw [ih i j (fun x hx => h x (by simp [hx])) hi' hj]
          rfl

theorem combos_getElem? {scope : List Variable} {vals : List String}
    (h : InDom scope vals) : (combos scope)[encodeIndex scope vals]? = some vals := by
  induction h with
  | nil => simp [combos, encodeIndex, encodeIndexAux]
  | @cons v x rest xs hx htail ih =>
      have hlen : xs.length = rest.length := (List.Forall₂.length_eq htail).symm
      have hidx : v.value_index x < v.dom.length := List.indexOf_lt_length.mpr hx
      have hstep : encodeIndex (v :: rest) (x :: xs)
          = v.value_index x * prodSize rest + encodeIndex rest xs := by
        show encodeIndexAux rest xs (0 * v.domain_size + v.value_index x)
            = v.value_index x * prodSize rest + encodeIndex rest xs
        rw [encodeIndexAux_linear rest xs (0 * v.domain_size + v.value_index x) hlen]
        ring_nf
      have hconst : ∀ val ∈ v.dom,
          (((combos rest).map (fun t => val :: t)).length) = prodSize rest := by
        intro val _; simp [combos_length]
      have hget := flatten_getElem? (fun val => (combos rest).map (fun t => val :: t))
        (prodSize rest) v.dom (v.value_index x) (encodeIndex rest xs) hconst
        hidx (encodeIndex_lt htail)
      have hval : v.dom.get ⟨v.value_index x, hidx⟩ = x := by
        simp [Variable.value_index]
      rw [show combos (v :: rest)
          = ((v.dom.map (fun val => (combos rest).map (fun t => val :: t))).flatten) from rfl]
      rw [hstep, hget, hval, List.getElem?_map, ih]
      rfl

/-- Reading a table built as `(combos scope).map fn` at an in-domain
tuple returns `fn` of that tuple: the mixed-radix index of a tuple is
its position in the lexicographic enumeration, which is exactly how the
nested construction loops of `bnetbase.py`/`solution.py` fill the
`values` array. -/
theorem table_get_value {nm : String} {scope : List Variable} {fn : List String → ℚ}
    {t : List String} (h : InDom scope t) :
    Factor.get_value ⟨nm, scope, (combos scope).map fn⟩ t = fn t := by
  simp only [Factor.get_value, List.getD_eq_getElem?_getD]
  rw [List.getElem?_map, combos_getElem? h]
  rfl

theorem getD_map_indexOf {l : List Variable} {v : Variable} (a : Variable → String)
    (d : String) (hv : v ∈ l) : (l.map a).getD (l.indexOf v) d = a v := by
  have hidx : l.indexOf v < l.length := List.indexOf_lt_length.mpr hv
  rw [List.getD_eq_getElem?_getD, List.getElem?_map]
  rw [List.getElem?_eq_getElem hidx]
  simp [List.getElem_indexOf hidx]

theorem inDom_map_self {s : List Variable} {a : Variable → String}
    (h : ∀ v ∈ s, a v ∈ v.dom) : InDom s (s.map a) := by
  induction s with
  | nil => exact List.Forall₂.nil
  | cons v rest ih =>
      exact List.Forall₂.cons (h v (by simp))
        (ih (fun w hw => h w (by simp [hw])))

/-! ### Tuple-extension lemmas for restriction and summing out. -/

theorem extendTuple_of_not_mem : ∀ (scope : List Variable) (var : Variable)
    (value : String) (t : List String), var ∉ scope → t.length = scope.length →
    extendTuple scope var value t = t := by
  intro scope
  induction scope with
  | nil =>
      intro var value t _ hlen
      match t with
      | [] => rfl
      | _ :: _ => simp at hlen
  | cons w rest ih =>
      intro var value t hmem hlen
      have hw : w ≠ var := fun h => hmem (by simp [h])
      match t with
      | [] => simp at hlen
      | s :: t' =>
          simp only [extendTuple, if_neg hw]
          rw [ih var value t' (fun h => hmem (by simp [h])) (by simpa using hlen)]

theorem inDom_extendTuple : ∀ {scope : List Variable} {var : Variable}
    {value : String} {t : List String}, scope.Nodup → value ∈ var.dom →
    InDom (scope.erase var) t → InDom scope (extendTuple scope var value t) := by
  intro scope
  induction scope with
  | nil =>
      intro var value t _ _ _
      exact List.Forall₂.nil
  | cons w rest ih =>
      intro var value t hnd hval h
      have hw : w ∉ rest := (List.nodup_cons.mp hnd).1
      have hrest : rest.Nodup := (List.nodup_cons.mp hnd).2
      by_cases hwv : w = var
      · subst hwv
        rw [List.erase_cons_head] at h
        simp only [extendTuple, if_pos rfl]
        have ht : extendTuple rest w value t = t :=
          extendTuple_of_not_mem rest w value t hw
            (List.Forall₂.length_eq h).symm
        rw [ht]
        exact List.Forall₂.cons hval h
      · rw [List.erase_cons_tail (by simpa using hwv)] at h
        match t, h with
        | s :: t', List.Forall₂.cons hs h' =>
            simp only [extendTuple, if_neg hwv]
            exact List.Forall₂.cons hs (ih hrest hval h')

theorem extendTuple_map : ∀ {scope : List Variable}, scope.Nodup →
    ∀ (var : Variable) (a : Variable → String) (d : String),
    extendTuple scope var d ((scope.erase var).map a) = scope.map (upd a var d) := by
  intro scope
  induction scope with
  | nil => intro _ var a d; rfl
  | cons w rest ih =>
      intro hnd var a d
      have hw : w ∉ rest := (List.nodup_cons.mp hnd).1
      have hrest : rest.Nodup := (List.nodup_cons.mp hnd).2
      by_cases hwv : w = var
      · subst hwv
        rw [List.erase_cons_head]
        have h1 : extendTuple rest w d (rest.map a) = rest.map a :=
          extendTuple_of_not_mem rest w d (rest.map a) hw (by simp)
        have h2 : upd a w d w = d := by simp [upd]
        have h3 : rest.map (upd a w d) = rest.map a :=
          List.map_congr_left (fun x hx => by
            have hxw : x ≠ w := fun hxw => hw (hxw ▸ hx)
            simp [upd, hxw])
        simp [extendTuple, h1, h2, h3]
      · rw [List.erase_cons_tail (by simpa using hwv)]
        simp only [List.map_cons, extendTuple, if_neg hwv]
        rw [ih hrest var a d]
        have : upd a var d w = a w := by simp [upd, hwv]
        rw [this]

/-! ### Specifications of `restrict_factor` and `sum_out_variable`. -/

theorem restrict_factor_eq {f : Factor} {var : Variable} {value : String}
    (hmem : var ∈ f.scope) (hval : value ∈ var.dom) :
    restrict_factor f var value
      = some ⟨f.name, f.scope.erase var,
          (combos (f.scope.erase var)).map
            (fun t => f.get_value (extendTuple f.scope var value t))⟩ := by
  simp [restrict_factor, hmem, hval]

theorem sum_out_variable_eq {f : Factor} {var : Variable} (hmem : var ∈ f.scope) :
    sum_out_variable f var
      = some ⟨f.name, f.scope.erase var,
          (combos (f.scope.erase var)).map
            (fun t => (var.dom.map
              (fun val => f.get_value (extendTuple f.scope var val t))).sum)⟩ := by
  simp [sum_out_variable, hmem]

/-! ### Concrete instances used by witnesses and counterexamples. -/

def vA : Variable := ⟨0, ("A"), ["a1", "a2"]⟩

def vB : Variable := ⟨1, ("B"), ["b1", "b2"]⟩

def fA : Factor := ⟨("FA"), [vA], [3, 5]⟩

def fB : Factor := ⟨("FB"), [vB], [2, 7]⟩

def fAB : Factor := ⟨("FAB"), [vA, vB], [1, 2, 3, 4]⟩

/-! ### C5: restriction by a variable outside the scope. -/

/-- C5 — counterexample.  The claim asserts that `restrict_factor`
with a variable not in the factor's scope completes and returns a
factor with the unchanged scope; at the concrete input `fA` (scope
`[vA]`) and variable `vB ∉ fA.scope`, the call raises
(`scope.remove(var)` raises `ValueError`), i.e. returns no factor at
all. -/
theorem C5_counterexample :
    vB ∉ fA.scope ∧
      ¬ ∃ F, restrict_factor fA vB ("b1") = some F ∧ F.scope = fA.scope := by
  refine ⟨by decide, ?_⟩
  rintro ⟨F, hF, _⟩
  have hnone : restrict_factor fA vB ("b1") = none := by decide
  rw [hnone] at hF
  exact Option.noConfusion hF

/-- C5 — amended claim: for every factor `f` and variable `v ∉ f.scope`,
`restrict_factor f v value` fails (Python's `scope.remove` raises
`ValueError`) rather than completing with an unchanged scope. -/
theorem C5_restrict_missing_var_fails (f : Factor) (var : Variable) (value : String)
    (h : var ∉ f.scope) : restrict_factor f var value = none := by
  simp [restrict_factor, h]

/-- C5 — witness for the amended claim at a concrete input. -/
theorem C5_witness : vB ∉ fA.scope ∧ restrict_factor fA vB ("b1") = none :=
  ⟨by decide, C5_restrict_missing_var_fails fA vB ("b1") (by decide)⟩

/-! ### C6: restriction by a scope variable. -/

/-- C6 — confirmed: for a factor with a duplicate-free scope, a scope
variable `var` and a domain value `value`, `restrict_factor` returns a
factor whose scope is the original scope with `var` removed (exactly
one variable shorter) and whose value at each remaining assignment is
the parent factor's value at that assignment extended with
`var = value`; when the scope is exactly `[var]` the result is a
zero-scope constant factor holding that single value. -/
theorem C6_restrict_factor_spec (f : Factor) (var : Variable) (value : String)
    (hnd : f.scope.Nodup) (hmem : var ∈ f.scope) (hval : value ∈ var.dom) :
    ∃ F, restrict_factor f var value = some F ∧
      F.scope = f.scope.erase var ∧
      F.scope.length + 1 = f.scope.length ∧
      (∀ t, InDom F.scope t →
        F.get_value t = f.get_value (extendTuple f.scope var value t)) ∧
      (f.scope = [var] → F.scope = [] ∧ F.get_value [] = f.get_value [value]) := by
  refine ⟨_, restrict_factor_eq hmem hval, rfl, ?_, ?_, ?_⟩
  · show (f.scope.erase var).length + 1 = f.scope.length
    have h1 : (f.scope.erase var).length = f.scope.length - 1 :=
      List.length_erase_of_mem hmem
    have h2 : 0 < f.scope.length := List.length_pos.mpr (List.ne_nil_of_mem hmem)
    omega
  · intro t ht
    exact table_get_value ht
  · intro hsc
    have hE : f.scope.erase var = [] := by rw [hsc, List.erase_cons_head]
    refine ⟨hE, ?_⟩
    have h0 : InDom (f.scope.erase var) ([] : List String) := by
      rw [hE]; exact List.Forall₂.nil
    have := @table_get_value f.name (f.scope.erase var)
      (fun t => f.get_value (extendTuple f.scope var value t)) [] h0
    rw [this]
    show f.get_value (extendTuple f.scope var value []) = f.get_value [value]
    have hext : extendTuple f.scope var value [] = [value] := by
      rw [hsc]; simp [extendTuple]
    rw [hext]

/-- C6 — witness at a concrete factor. -/
theorem C6_witness :
    ∃ F, restrict_factor fAB vB ("b2") = some F ∧
      F.scope = fAB.scope.erase vB ∧
      F.scope.length + 1 = fAB.scope.length ∧
      (∀ t, InDom F.scope t →
        F.get_value t = fAB.get_value (extendTuple fAB.scope vB ("b2") t)) ∧
      (fAB.scope = [vB] → F.scope = [] ∧ F.get_value [] = fAB.get_value [("b2")]) :=
  C6_restrict_factor_spec fAB vB ("b2") (by decide) (by decide) (by decide)

/-! ### C7: summing a scope variable out. -/

/-- C7 — confirmed: for a factor with a duplicate-free scope and a
scope variable `var`, `sum_out_variable` returns a factor over the
scope with `var` removed, whose value at each remaining assignment is
the sum, over every value in `var`'s domain, of the parent factor's
value at that assignment extended with that value of `var`. -/
theorem C7_sum_out_variable_spec (f : Factor) (var : Variable)
    (hnd : f.scope.Nodup) (hmem : var ∈ f.scope) :
    ∃ F, sum_out_variable f var = some F ∧
      F.scope = f.scope.erase var ∧
      F.scope.length + 1 = f.scope.length ∧
      (∀ t, InDom F.scope t →
        F.get_value t = (var.dom.map
          (fun val => f.get_value (extendTuple f.scope var val t))).sum) := by
  refine ⟨_, sum_out_variable_eq hmem, rfl, ?_, ?_⟩
  · show (f.scope.erase var).length + 1 = f.scope.length
    have h1 : (f.scope.erase var).length = f.scope.length - 1 :=
      List.length_erase_of_mem hmem
    have h2 : 0 < f.scope.length := List.length_pos.mpr (List.ne_nil_of_mem hmem)
    omega
  · intro t ht
    exact table_get_value ht

/-- C7 — witness at a concrete factor. -/
theorem C7_witness :
    ∃ F, sum_out_variable fAB vA = some F ∧
      F.scope = fAB.scope.erase vA ∧
      F.scope.length + 1 = fAB.scope.length ∧
      (∀ t, InDom F.scope t →
        F.get_value t = (vA.dom.map
          (fun val => fAB.get_value (extendTuple fAB.scope vA val t))).sum) :=
  C7_sum_out_variable_spec fAB vA (by decide) (by decide)

/-! ### C8: normalize. -/

/-- C8 — confirmed: `normalize` keeps the length; on a nonzero sum it
divides every entry by the sum and the output sums to 1; on a zero sum
it returns a list of zeros instead of dividing by zero. -/
theorem C8_normalize_spec (nums : List ℚ) (hnn : ∀ n ∈ nums, 0 ≤ n) :
    (normalize nums).length = nums.length ∧
    (nums.sum ≠ 0 →
      normalize nums = nums.map (fun n => n / nums.sum) ∧ (normalize nums).sum = 1) ∧
    (nums.sum = 0 → normalize nums = List.replicate nums.length 0) := by
  refine ⟨?_, ?_, ?_⟩
  · by_cases h : nums.sum = 0 <;> simp [normalize, h]
  · intro h
    refine ⟨by simp [normalize, h], ?_⟩
    simp only [normalize, if_neg h]
    have hsum : (nums.map (fun n => n / nums.sum)).sum = nums.sum / nums.sum := by
      simp only [div_eq_mul_inv]
      rw [List.sum_map_mul_right nums (fun n => n) (nums.sum)⁻¹]
      simp
    rw [hsum, div_self h]
  · intro h
    simp [normalize, h]

/-- C8 — witness at a concrete list. -/
theorem C8_witness :
    (∀ n ∈ [(1 : ℚ), 3], 0 ≤ n) ∧
      (normalize [(1 : ℚ), 3]).length = [(1 : ℚ), 3].length :=
  ⟨by norm_num, (C8_normalize_spec [(1 : ℚ), 3] (by norm_num)).1⟩

/-! ### C10: the broken `reset_evidence`. -/

/-- C10 — confirmed: after `set_evidence(val)`, calling the
`reset_evidence` method as written (which assigns `-1` to an instance
attribute named `reset_evidence` instead of resetting the evidence
index) leaves the stored evidence unchanged — `get_evidence` still
returns `val` — while the per-variable effect of `BN.reset_variables`
(writing `evidence_index = -1` directly) does clear it. -/
theorem C10_reset_evidence_frame (v : Variable) (s : VarState) (val : String)
    (hval : val ∈ v.dom) :
    Variable.get_evidence v (Variable.reset_evidence (Variable.set_evidence v s val))
      = Variable.get_evidence v (Variable.set_evidence v s val) ∧
    Variable.get_evidence v (Variable.reset_evidence (Variable.set_evidence v s val))
      = some val ∧
    Variable.get_evidence v (BN.reset_variables_state (Variable.set_evidence v s val))
      = none := by
  refine ⟨rfl, ?_, ?_⟩
  · have hidx : v.dom.indexOf val < v.dom.length := List.indexOf_lt_length.mpr hval
    simp only [Variable.get_evidence, Variable.reset_evidence, Variable.set_evidence,
      Variable.value_index]
    rw [if_pos (by exact_mod_cast Nat.zero_le _)]
    rw [Int.toNat_natCast]
    rw [List.get?_eq_getElem?, List.getElem?_eq_getElem hidx]
    simp [List.getElem_indexOf hidx]
  · simp [Variable.get_evidence, BN.reset_variables_state]

/-- C10 — witness at a concrete variable and state. -/
theorem C10_witness :
    ("a1") ∈ vA.dom ∧
      Variable.get_evidence vA
        (Variable.reset_evidence (Variable.set_evidence vA ⟨-1, -1, none⟩ ("a1")))
        = some ("a1") :=
  ⟨by decide, (C10_reset_evidence_frame vA ⟨-1, -1, none⟩ ("a1") (by decide)).2.1⟩

/-! ### Multiplication. -/

theorem multiply_pair_scope_mem (f1 f2 : Factor) (v : Variable) :
    v ∈ (multiply_pair f1 f2).scope ↔ v ∈ f1.scope ∨ v ∈ f2.scope := by
  simp only [multiply_pair, Factor.get_scope, List.mem_append, List.mem_filter,
    decide_eq_true_eq]
  tauto

theorem multiply_pair_scope_nodup {f1 f2 : Factor} (h1 : f1.scope.Nodup)
    (h2 : f2.scope.Nodup) : (multiply_pair f1 f2).scope.Nodup := by
  show (f2.get_scope ++ f1.get_scope.filter
    (fun v => decide (v ∉ f2.get_scope))).Nodup
  refine List.Nodup.append h2 (List.Nodup.filter _ h1) ?_
  intro a ha hb
  have := (List.mem_filter.mp hb).2
  simp only [decide_eq_true_eq] at this
  exact this ha

theorem multiply_pair_get (f1 f2 : Factor) (a : Variable → String)
    (h : ∀ v, v ∈ f1.scope ∨ v ∈ f2.scope → a v ∈ v.dom) :
    (multiply_pair f1 f2).get_value ((multiply_pair f1 f2).scope.map a)
      = f1.get_value (f1.scope.map a) * f2.get_value (f2.scope.map a) := by
  have hmem := multiply_pair_scope_mem f1 f2
  have hin : InDom (multiply_pair f1 f2).scope ((multiply_pair f1 f2).scope.map a) :=
    inDom_map_self (fun v hv => h v ((hmem v).mp hv))
  have htab := @table_get_value ("Factor")
    ((multiply_pair f1 f2).scope)
    (fun comb =>
      f1.get_value (f1.scope.map
        (fun v => comb.getD ((multiply_pair f1 f2).scope.indexOf v) (""))) *
      f2.get_value (f2.scope.map
        (fun v => comb.getD ((multiply_pair f1 f2).scope.indexOf v) (""))))
    ((multiply_pair f1 f2).scope.map a) hin
  have hstart : (multiply_pair f1 f2).get_value ((multiply_pair f1 f2).scope.map a)
      = f1.get_value (f1.scope.map (fun v =>
          ((multiply_pair f1 f2).scope.map a).getD
            ((multiply_pair f1 f2).scope.indexOf v) (""))) *
        f2.get_value (f2.scope.map (fun v =>
          ((multiply_pair f1 f2).scope.map a).getD
            ((multiply_pair f1 f2).scope.indexOf v) (""))) := htab
  rw [hstart]
  have hm1 : f1.scope.map (fun v =>
      ((multiply_pair f1 f2).scope.map a).getD
        ((multiply_pair f1 f2).scope.indexOf v) ("")) = f1.scope.map a :=
    List.map_congr_left (fun v hv =>
      getD_map_indexOf a ("") ((hmem v).mpr (Or.inl hv)))
  have hm2 : f2.scope.map (fun v =>
      ((multiply_pair f1 f2).scope.map a).getD
        ((multiply_pair f1 f2).scope.indexOf v) ("")) = f2.scope.map a :=
    List.map_congr_left (fun v hv =>
      getD_map_indexOf a ("") ((hmem v).mpr (Or.inr hv)))
  rw [hm1, hm2]

theorem mult_loop_spec_aux : ∀ (n : Nat) (L : List Factor), L.length ≤ n → L ≠ [] →
    (∀ f ∈ L, f.scope.Nodup) →
    ∃ F, mult_loop L = some F ∧ F.scope.Nodup ∧
      (∀ v, v ∈ F.scope ↔ ∃ f ∈ L, v ∈ f.scope) ∧
      (∀ a : Variable → String, (∀ f ∈ L, ∀ v ∈ f.scope, a v ∈ v.dom) →
        F.get_value (F.scope.map a)
          = (L.map (fun f => f.get_value (f.scope.map a))).prod) := by
  intro n
  induction n with
  | zero =>
      intro L hlen hne _
      match L with
      | [] => exact absurd rfl hne
      | _ :: _ => simp at hlen
  | succ n ih =>
      intro L hlen hne hnd
      match L with
      | [] => exact absurd rfl hne
      | [f] =>
          refine ⟨f, by rw [mult_loop], hnd f (by simp), fun v => by simp, fun a _ => by simp⟩
      | f1 :: f2 :: rest =>
          have hstep : mult_loop (f1 :: f2 :: rest)
              = mult_loop (multiply_pair f1 f2 :: rest) := by
            rw [mult_loop]
          have hlen' : (multiply_pair f1 f2 :: rest).length ≤ n := by
            simp only [List.length_cons] at hlen ⊢
            omega
          have hnd' : ∀ f ∈ multiply_pair f1 f2 :: rest, f.scope.Nodup := by
            intro f hf
            rcases List.mem_cons.mp hf with h | h
            · subst h
              exact multiply_pair_scope_nodup (hnd f1 (by simp)) (hnd f2 (by simp))
            · exact hnd f (by simp [h])
          obtain ⟨F, hF, hFnd, hFmem, hFval⟩ :=
            ih (multiply_pair f1 f2 :: rest) hlen' (by simp) hnd'
          refine ⟨F, hstep.trans hF, hFnd, ?_, ?_⟩
          · intro v
            rw [hFmem v]
            constructor
            · rintro ⟨f, hf, hv⟩
              rcases List.mem_cons.mp hf with h | h
              · subst h
                rcases (multiply_pair_scope_mem f1 f2 v).mp hv with h | h
                · exact ⟨f1, by simp, h⟩
                · exact ⟨f2, by simp, h⟩
              · exact ⟨f, by simp [h], hv⟩
            · rintro ⟨f, hf, hv⟩
              rcases List.mem_cons.mp hf with h | h
              · exact ⟨multiply_pair f1 f2, by simp,
                  (multiply_pair_scope_mem f1 f2 v).mpr (Or.inl (h ▸ hv))⟩
              rcases List.mem_cons.mp h with h | h
              · exact ⟨multiply_pair f1 f2, by simp,
                  (multiply_pair_scope_mem f1 f2 v).mpr (Or.inr (h ▸ hv))⟩
              · exact ⟨f, by simp [h], hv⟩
          · intro a hgood
            have hgood' : ∀ f ∈ multiply_pair f1 f2 :: rest, ∀ v ∈ f.scope, a v ∈ v.dom := by
              intro f hf v hv
              rcases List.mem_cons.mp hf with h | h
              · subst h
                rcases (multiply_pair_scope_mem f1 f2 v).mp hv with h | h
                · exact hgood f1 (by simp) v h
                · exact hgood f2 (by simp) v h
              · exact hgood f (by simp [h]) v hv
            rw [hFval a hgood']
            have hpair : (multiply_pair f1 f2).get_value ((multiply_pair f1 f2).scope.map a)
                = f1.get_value (f1.scope.map a) * f2.get_value (f2.scope.map a) :=
              multiply_pair_get f1 f2 a (fun v hv => by
                rcases hv with h | h
                · exact hgood f1 (by simp) v h
                · exact hgood f2 (by simp) v h)
            simp only [List.map_cons, List.prod_cons, hpair]
            ring

theorem multiply_factors_spec (L : List Factor) (hne : L ≠ [])
    (hnd : ∀ f ∈ L, f.scope.Nodup) :
    ∃ F, multiply_factors L = some F ∧ F.scope.Nodup ∧
      (∀ v, v ∈ F.scope ↔ ∃ f ∈ L, v ∈ f.scope) ∧
      (∀ a : Variable → String, (∀ f ∈ L, ∀ v ∈ f.scope, a v ∈ v.dom) →
        F.get_value (F.scope.map a)
          = (L.map (fun f => f.get_value (f.scope.map a))).prod) := by
  have hne' : L.reverse ≠ [] := by simpa using hne
  have hnd' : ∀ f ∈ L.reverse, f.scope.Nodup := fun f hf =>
    hnd f (List.mem_reverse.mp hf)
  obtain ⟨F, h1, h2, h3, h4⟩ :=
    mult_loop_spec_aux L.reverse.length L.reverse le_rfl hne' hnd'
  refine ⟨F, h1, h2, ?_, ?_⟩
  · intro v
    rw [h3 v]
    constructor
    · rintro ⟨f, hf, hv⟩; exact ⟨f, List.mem_reverse.mp hf, hv⟩
    · rintro ⟨f, hf, hv⟩; exact ⟨f, List.mem_reverse.mpr hf, hv⟩
  · intro a hgood
    rw [h4 a (fun f hf => hgood f (List.mem_reverse.mp hf))]
    rw [List.map_reverse, List.prod_reverse]

/-- C3 — confirmed: for every non-empty list of factors with
duplicate-free scopes, `multiply_factors` returns a factor whose scope
is the duplicate-free union of the input scopes, whose value at every
full assignment to that union is the product of the inputs' values at
the assignment restricted to their own scopes, and whose evaluated
value at any fixed assignment is the same for any reordering of the
input list. -/
theorem C3_multiply_factors_spec (L : List Factor) (hne : L ≠ [])
    (hnd : ∀ f ∈ L, f.scope.Nodup) :
    ∃ F, multiply_factors L = some F ∧ F.scope.Nodup ∧
      (∀ v, v ∈ F.scope ↔ ∃ f ∈ L, v ∈ f.scope) ∧
      (∀ a : Variable → String, (∀ f ∈ L, ∀ v ∈ f.scope, a v ∈ v.dom) →
        F.get_value (F.scope.map a)
          = (L.map (fun f => f.get_value (f.scope.map a))).prod) ∧
      (∀ L' : List Factor, L.Perm L' → ∀ F', multiply_factors L' = some F' →
        ∀ a : Variable → String, (∀ f ∈ L, ∀ v ∈ f.scope, a v ∈ v.dom) →
          F'.get_value (F'.scope.map a) = F.get_value (F.scope.map a)) := by
  obtain ⟨F, h1, h2, h3, h4⟩ := multiply_factors_spec L hne hnd
  refine ⟨F, h1, h2, h3, h4, ?_⟩
  intro L' hperm F' hF' a hgood
  have hne2 : L' ≠ [] := by
    intro h
    exact hne (List.Perm.eq_nil (h ▸ hperm))
  have hnd2 : ∀ f ∈ L', f.scope.Nodup := fun f hf =>
    hnd f (hperm.mem_iff.mpr hf)
  obtain ⟨F2, g1, _, _, g4⟩ := multiply_factors_spec L' hne2 hnd2
  have hF2 : F2 = F' := by
    rw [g1] at hF'
    exact (Option.some.injEq _ _ ▸ hF').symm ▸ rfl
  have hgood2 : ∀ f ∈ L', ∀ v ∈ f.scope, a v ∈ v.dom := fun f hf =>
    hgood f (hperm.mem_iff.mpr hf)
  have hprod : (L'.map (fun f => f.get_value (f.scope.map a))).prod
      = (L.map (fun f => f.get_value (f.scope.map a))).prod :=
    List.Perm.prod_eq (List.Perm.map _ hperm.symm)
  calc F'.get_value (F'.scope.map a)
      = F2.get_value (F2.scope.map a) := by rw [hF2]
    _ = (L'.map (fun f => f.get_value (f.scope.map a))).prod := g4 a hgood2
    _ = (L.map (fun f => f.get_value (f.scope.map a))).prod := hprod
    _ = F.get_value (F.scope.map a) := (h4 a hgood).symm

/-- C3 — witness at two concrete single-variable factors. -/
theorem C3_witness :
    ∃ F, multiply_factors [fA, fB] = some F ∧ F.scope.Nodup ∧
      (∀ v, v ∈ F.scope ↔ ∃ f ∈ [fA, fB], v ∈ f.scope) ∧
      (∀ a : Variable → String, (∀ f ∈ [fA, fB], ∀ v ∈ f.scope, a v ∈ v.dom) →
        F.get_value (F.scope.map a)
          = ([fA, fB].map (fun f => f.get_value (f.scope.map a))).prod) ∧
      (∀ L' : List Factor, ([fA, fB] : List Factor).Perm L' →
        ∀ F', multiply_factors L' = some F' →
        ∀ a : Variable → String, (∀ f ∈ [fA, fB], ∀ v ∈ f.scope, a v ∈ v.dom) →
          F'.get_value (F'.scope.map a) = F.get_value (F.scope.map a)) :=
  C3_multiply_factors_spec [fA, fB] (by decide) (by decide)

/-! ### The counting dict of `min_fill_ordering`. -/

theorem scope_foldl_filter (Q : Variable) :
    ∀ (scope : List Variable) (d : List (Variable × Nat)),
      scope.foldl (fun d s => if s = Q then d else bump d s) d
        = (scope.filter (fun s => decide (s ≠ Q))).foldl bump d := by
  intro scope
  induction scope with
  | nil => intro d; rfl
  | cons s rest ih =>
      intro d
      by_cases hs : s = Q
      · simp [List.foldl_cons, List.filter_cons, hs, ih]
      · simp [List.foldl_cons, List.filter_cons, hs, ih]

theorem count_vars_eq_foldl (Factors : List Factor) (Q : Variable) :
    count_vars Factors Q
      = ((Factors.flatMap Factor.get_scope).filter
          (fun s => decide (s ≠ Q))).foldl bump [] := by
  suffices h : ∀ (L : List Factor) (d : List (Variable × Nat)),
      L.foldl (fun dct f => f.get_scope.foldl
        (fun d s => if s = Q then d else bump d s) dct) d
        = ((L.flatMap Factor.get_scope).filter (fun s => decide (s ≠ Q))).foldl bump d by
    exact h Factors []
  intro L
  induction L with
  | nil => intro d; rfl
  | cons f L ih =>
      intro d
      simp only [List.foldl_cons, List.flatMap_cons, List.filter_append,
        List.foldl_append]
      rw [ih, scope_foldl_filter]

theorem bump_of_mem {d : List (Variable × Nat)} {v : Variable}
    (h : v ∈ d.map Prod.fst) :
    bump d v = d.map (fun p => if p.1 = v then (p.1, p.2 + 1) else p) := by
  simp [bump, h]

theorem bump_of_not_mem {d : List (Variable × Nat)} {v : Variable}
    (h : v ∉ d.map Prod.fst) : bump d v = d ++ [(v, 1)] := by
  simp [bump, h]

theorem bump_keys (d : List (Variable × Nat)) (v : Variable) :
    (bump d v).map Prod.fst
      = if v ∈ d.map Prod.fst then d.map Prod.fst else d.map Prod.fst ++ [v] := by
  by_cases h : v ∈ d.map Prod.fst
  · rw [if_pos h, bump_of_mem h, List.map_map]
    exact List.map_congr_left (fun p _ => by by_cases hp : p.1 = v <;> simp [hp])
  · rw [if_neg h, bump_of_not_mem h]
    simp

theorem bump_step_invariant (d : List (Variable × Nat)) (pr : List Variable)
    (v : Variable) (hnd : (d.map Prod.fst).Nodup)
    (hcnt : ∀ p ∈ d, p.2 = pr.count p.1)
    (hmem : ∀ w, w ∈ d.map Prod.fst ↔ w ∈ pr) :
    ((bump d v).map Prod.fst).Nodup ∧
    (∀ p ∈ bump d v, p.2 = (pr ++ [v]).count p.1) ∧
    (∀ w, w ∈ (bump d v).map Prod.fst ↔ w ∈ pr ++ [v]) := by
  have hc1 : ∀ x : Variable, (pr ++ [v]).count x
      = pr.count x + if v = x then 1 else 0 := by
    intro x
    rw [List.count_append, List.count_singleton]
    simp
  by_cases h : v ∈ d.map Prod.fst
  · rw [bump_keys, if_pos h]
    refine ⟨hnd, ?_, ?_⟩
    · intro p hp
      rw [bump_of_mem h, List.mem_map] at hp
      obtain ⟨q, hq, hqp⟩ := hp
      by_cases hqv : q.1 = v
      · have hpq : p = (q.1, q.2 + 1) := by rw [← hqp]; simp [hqv]
        rw [hpq]
        show q.2 + 1 = (pr ++ [v]).count q.1
        rw [hc1 q.1, ← hcnt q hq, if_pos hqv.symm]
      · have hpq : p = q := by rw [← hqp]; simp [hqv]
        have hne : ¬ v = q.1 := fun hx => hqv hx.symm
        rw [hpq, hc1 q.1, ← hcnt q hq, if_neg hne]
        omega
    · intro w
      rw [hmem w]
      constructor
      · intro hw; exact List.mem_append.mpr (Or.inl hw)
      · intro hw
        rcases List.mem_append.mp hw with hw | hw
        · exact hw
        · have : w = v := by simpa using hw
          exact this ▸ ((hmem v).mp h)
  · rw [bump_keys, if_neg h]
    refine ⟨?_, ?_, ?_⟩
    · rw [List.nodup_append]
      exact ⟨hnd, List.nodup_singleton v,
        fun w hw hw' => h ((by simpa using hw') ▸ hw)⟩
    · intro p hp
      rw [bump_of_not_mem h] at hp
      rcases List.mem_append.mp hp with hp | hp
      · have hpv : p.1 ≠ v := fun hx =>
          h (hx ▸ (List.mem_map.mpr ⟨p, hp, rfl⟩))
        have hne : ¬ v = p.1 := fun hx => hpv hx.symm
        rw [hc1 p.1, ← hcnt p hp, if_neg hne]
        omega
      · have hpq : p = (v, 1) := by simpa using hp
        rw [hpq]
        show 1 = (pr ++ [v]).count v
        have hv0 : pr.count v = 0 :=
          List.count_eq_zero_of_not_mem (fun hx => h ((hmem v).mpr hx))
        rw [hc1 v, hv0, if_pos rfl]
    · intro w
      rw [List.mem_append, List.mem_append, hmem w]

theorem bump_fold_invariant : ∀ (xs : List Variable) (d : List (Variable × Nat))
    (pr : List Variable), (d.map Prod.fst).Nodup →
    (∀ p ∈ d, p.2 = pr.count p.1) →
    (∀ w, w ∈ d.map Prod.fst ↔ w ∈ pr) →
    ((xs.foldl bump d).map Prod.fst).Nodup ∧
    (∀ p ∈ xs.foldl bump d, p.2 = (pr ++ xs).count p.1) ∧
    (∀ w, w ∈ (xs.foldl bump d).map Prod.fst ↔ w ∈ pr ++ xs) ∧
    (xs.foldl bump d).map Prod.fst = firstSeenFrom xs (d.map Prod.fst) := by
  intro xs
  induction xs with
  | nil =>
      intro d pr h1 h2 h3
      refine ⟨h1, by simpa using h2, by simpa using h3, rfl⟩
  | cons v xs ih =>
      intro d pr h1 h2 h3
      obtain ⟨g1, g2, g3⟩ := bump_step_invariant d pr v h1 h2 h3
      obtain ⟨k1, k2, k3, k4⟩ := ih (bump d v) (pr ++ [v]) g1 g2 g3
      have happ : pr ++ [v] ++ xs = pr ++ v :: xs := by simp
      refine ⟨k1, ?_, ?_, ?_⟩
      · intro p hp
        rw [← happ]
        exact k2 p hp
      · intro w
        rw [← happ]
        exact k3 w
      · rw [List.foldl_cons, k4, firstSeenFrom]
        congr 1
        exact bump_keys d v

/-! ### First-encounter order. -/

theorem mem_firstSeenFrom : ∀ (xs acc : List Variable) (w : Variable),
    w ∈ firstSeenFrom xs acc ↔ w ∈ acc ∨ w ∈ xs := by
  intro xs
  induction xs with
  | nil => intro acc w; simp [firstSeenFrom]
  | cons v xs ih =>
      intro acc w
      rw [firstSeenFrom, ih]
      by_cases h : v ∈ acc
      · rw [if_pos h]
        constructor
        · rintro (hw | hw)
          · exact Or.inl hw
          · exact Or.inr (by simp [hw])
        · rintro (hw | hw)
          · exact Or.inl hw
          · rcases List.mem_cons.mp hw with hw | hw
            · exact Or.inl (hw ▸ h)
            · exact Or.inr hw
      · rw [if_neg h]
        rw [List.mem_append]
        constructor
        · rintro ((hw | hw) | hw)
          · exact Or.inl hw
          · exact Or.inr (by simp at hw; simp [hw])
          · exact Or.inr (by simp [hw])
        · rintro (hw | hw)
          · exact Or.inl (Or.inl hw)
          · rcases List.mem_cons.mp hw with hw | hw
            · exact Or.inl (Or.inr (by simp [hw]))
            · exact Or.inr hw

theorem firstSeenFrom_filter (p : Variable → Bool) :
    ∀ (xs acc : List Variable),
      firstSeenFrom (xs.filter p) (acc.filter p) = (firstSeenFrom xs acc).filter p := by
  intro xs
  induction xs with
  | nil => intro acc; rfl
  | cons v xs ih =>
      intro acc
      by_cases hp : p v
      · rw [List.filter_cons, if_pos (by simp [hp])]
        rw [firstSeenFrom, firstSeenFrom]
        by_cases hv : v ∈ acc
        · rw [if_pos (List.mem_filter.mpr ⟨hv, by simp [hp]⟩), if_pos hv, ih]
        · rw [if_neg (fun hx => hv (List.mem_filter.mp hx).1), if_neg hv]
          have hfa : acc.filter p ++ [v] = (acc ++ [v]).filter p := by
            rw [List.filter_append]
            simp [hp]
          rw [hfa]
          exact ih (acc ++ [v])
      · rw [List.filter_cons, if_neg (by simp [hp])]
        rw [firstSeenFrom]
        by_cases hv : v ∈ acc
        · rw [if_pos hv, ih]
        · rw [if_neg hv]
          have hfa : acc.filter p = (acc ++ [v]).filter p := by
            rw [List.filter_append]
            simp [hp]
          rw [hfa]
          exact ih (acc ++ [v])

/-! ### The stable sort of `min_fill_ordering`. -/

theorem insertByCount_perm (x : Variable × Nat) :
    ∀ l : List (Variable × Nat), (insertByCount x l).Perm (x :: l) := by
  intro l
  induction l with
  | nil => exact List.Perm.refl _
  | cons y ys ih =>
      by_cases h : y.2 ≤ x.2
      · rw [insertByCount, if_pos h]
        exact (List.Perm.cons y ih).trans (List.Perm.swap x y ys)
      · rw [insertByCount, if_neg h]

theorem insertByCount_sorted (x : Variable × Nat) :
    ∀ l : List (Variable × Nat), l.Pairwise (fun a b => a.2 ≤ b.2) →
      (insertByCount x l).Pairwise (fun a b => a.2 ≤ b.2) := by
  intro l
  induction l with
  | nil => simp [insertByCount]
  | cons y ys ih =>
      intro hs
      rw [List.pairwise_cons] at hs
      by_cases h : y.2 ≤ x.2
      · rw [insertByCount, if_pos h, List.pairwise_cons]
        refine ⟨?_, ih hs.2⟩
        intro z hz
        rcases List.mem_cons.mp ((insertByCount_perm x ys).mem_iff.mp hz) with hz | hz
        · exact hz ▸ h
        · exact hs.1 z hz
      · rw [insertByCount, if_neg h, List.pairwise_cons]
        have hxy : x.2 ≤ y.2 := le_of_lt (lt_of_not_le h)
        refine ⟨?_, List.Pairwise.cons hs.1 hs.2⟩
        intro z hz
        rcases List.mem_cons.mp hz with hz | hz
        · exact hz ▸ hxy
        · exact le_trans hxy (hs.1 z hz)

/-- Position of an entry in a list (0-based; length when absent). -/
def posIn : List (Variable × Nat) → (Variable × Nat) → Nat
  | [], _ => 0
  | y :: ys, a => if y = a then 0 else posIn ys a + 1

theorem posIn_append_left {a : Variable × Nat} :
    ∀ {P : List (Variable × Nat)} (Q : List (Variable × Nat)), a ∈ P →
      posIn (P ++ Q) a = posIn P a := by
  intro P
  induction P with
  | nil => intro Q h; simp at h
  | cons y P ih =>
      intro Q h
      rw [List.cons_append, posIn, posIn]
      by_cases hy : y = a
      · rw [if_pos hy, if_pos hy]
      · rw [if_neg hy, if_neg hy]
        have ha : a ∈ P := by
          rcases List.mem_cons.mp h with h | h
          · exact absurd h.symm hy
          · exact h
        rw [ih Q ha]

theorem posIn_append_self {x : Variable × Nat} :
    ∀ {P : List (Variable × Nat)}, x ∉ P → posIn (P ++ [x]) x = P.length := by
  intro P
  induction P with
  | nil => intro _; simp [posIn]
  | cons y P ih =>
      intro h
      have hy : y ≠ x := fun hx => h (by simp [hx])
      rw [List.cons_append, posIn, if_neg hy, List.length_cons,
        ih (fun hx => h (by simp [hx]))]

theorem posIn_lt_length {a : Variable × Nat} :
    ∀ {P : List (Variable × Nat)}, a ∈ P → posIn P a < P.length := by
  intro P
  induction P with
  | nil => intro h; simp at h
  | cons y P ih =>
      intro h
      rw [posIn]
      by_cases hy : y = a
      · rw [if_pos hy]; simp
      · rw [if_neg hy, List.length_cons]
        have ha : a ∈ P := by
          rcases List.mem_cons.mp h with h | h
          · exact absurd h.symm hy
          · exact h
        exact Nat.succ_lt_succ (ih ha)

/-- The stability relation: `a` may precede `b` in the sorted output
when its count is smaller, or the counts tie and `a` does not come
after `b` in the dict order `P`. -/
def countRel (P : List (Variable × Nat)) (a b : Variable × Nat) : Prop :=
  a.2 < b.2 ∨ (a.2 = b.2 ∧ posIn P a ≤ posIn P b)

theorem countRel_mono {P : List (Variable × Nat)} (Q : List (Variable × Nat))
    {a b : Variable × Nat} (ha : a ∈ P) (hb : b ∈ P) (h : countRel P a b) :
    countRel (P ++ Q) a b := by
  rcases h with h | ⟨h1, h2⟩
  · exact Or.inl h
  · refine Or.inr ⟨h1, ?_⟩
    rw [posIn_append_left Q ha, posIn_append_left Q hb]
    exact h2

theorem insertByCount_stable (P : List (Variable × Nat)) (x : Variable × Nat)
    (hx : x ∉ P) :
    ∀ l : List (Variable × Nat), (∀ z ∈ l, z ∈ P) →
    l.Pairwise (fun a b => a.2 ≤ b.2) → l.Pairwise (countRel P) →
    (insertByCount x l).Pairwise (countRel (P ++ [x])) := by
  intro l
  induction l with
  | nil =>
      intro _ _ _
      simp [insertByCount]
  | cons y ys ih =>
      intro hsub hsorted hst
      rw [List.pairwise_cons] at hsorted hst
      by_cases h : y.2 ≤ x.2
      · rw [insertByCount, if_pos h, List.pairwise_cons]
        refine ⟨?_, ih (fun z hz => hsub z (by simp [hz])) hsorted.2 hst.2⟩
        intro z hz
        rcases List.mem_cons.mp ((insertByCount_perm x ys).mem_iff.mp hz) with hz | hz
        · subst hz
          rcases lt_or_eq_of_le h with hlt | heq
          · exact Or.inl hlt
          · refine Or.inr ⟨heq, ?_⟩
            have hyP : y ∈ P := hsub y (by simp)
            rw [posIn_append_left [z] hyP, posIn_append_self hx]
            exact le_of_lt (posIn_lt_length hyP)
        · exact countRel_mono [x] (hsub y (by simp)) (hsub z (by simp [hz]))
            (hst.1 z hz)
      · rw [insertByCount, if_neg h]
        have hxy : x.2 < y.2 := lt_of_not_le h
        rw [List.pairwise_cons]
        constructor
        · intro z hz
          rcases List.mem_cons.mp hz with hz | hz
          · exact Or.inl (hz ▸ hxy)
          · exact Or.inl (lt_of_lt_of_le hxy (hsorted.1 z hz))
        · rw [List.pairwise_cons]
          refine ⟨?_, ?_⟩
          · intro z hz
            exact countRel_mono [x] (hsub y (by simp)) (hsub z (by simp [hz]))
              (hst.1 z hz)
          · exact List.Pairwise.imp_of_mem
              (fun ha hb hr => countRel_mono [x]
                (hsub _ (by simp [ha])) (hsub _ (by simp [hb])) hr) hst.2

theorem sortFold_stable : ∀ (l P acc : List (Variable × Nat)),
    (P ++ l).Nodup → (∀ z ∈ acc, z ∈ P) →
    acc.Pairwise (fun a b => a.2 ≤ b.2) → acc.Pairwise (countRel P) →
    (∀ z ∈ l.foldl (fun acc x => insertByCount x acc) acc, z ∈ P ++ l) ∧
    (l.foldl (fun acc x => insertByCount x acc) acc).Pairwise
      (fun a b => a.2 ≤ b.2) ∧
    (l.foldl (fun acc x => insertByCount x acc) acc).Pairwise
      (countRel (P ++ l)) := by
  intro l
  induction l with
  | nil =>
      intro P acc _ hsub hsorted hst
      refine ⟨fun z hz => by simpa using hsub z hz, hsorted, ?_⟩
      simpa using hst
  | cons x xs ih =>
      intro P acc hnd hsub hsorted hst
      have hx : x ∉ P := by
        intro hxP
        exact (List.disjoint_of_nodup_append hnd) hxP (by simp)
      have hsub' : ∀ z ∈ insertByCount x acc, z ∈ P ++ [x] := by
        intro z hz
        rcases List.mem_cons.mp ((insertByCount_perm x acc).mem_iff.mp hz) with hz | hz
        · exact List.mem_append.mpr (Or.inr (by simp [hz]))
        · exact List.mem_append.mpr (Or.inl (hsub z hz))
      have hsorted' := insertByCount_sorted x acc hsorted
      have hst' := insertByCount_stable P x hx acc hsub hsorted hst
      have hnd' : ((P ++ [x]) ++ xs).Nodup := by
        rw [List.append_assoc]
        simpa using hnd
      obtain ⟨m1, m2, m3⟩ := ih (P ++ [x]) (insertByCount x acc) hnd' hsub' hsorted' hst'
      have happ : (P ++ [x]) ++ xs = P ++ x :: xs := by simp
      rw [List.foldl_cons]
      refine ⟨?_, m2, ?_⟩
      · intro z hz
        rw [← happ]
        exact m1 z hz
      · rw [← happ]
        exact m3

theorem sortByCount_perm : ∀ (l : List (Variable × Nat)),
    (sortByCount l).Perm l := by
  suffices h : ∀ (l acc : List (Variable × Nat)),
      (l.foldl (fun acc x => insertByCount x acc) acc).Perm (acc ++ l) by
    intro l
    simpa using h l []
  intro l
  induction l with
  | nil => intro acc; simp
  | cons x xs ih =>
      intro acc
      rw [List.foldl_cons]
      refine (ih (insertByCount x acc)).trans ?_
      refine (List.Perm.append_right xs (insertByCount_perm x acc)).trans ?_
      rw [show x :: acc ++ xs = x :: (acc ++ xs) from rfl]
      exact (List.perm_middle).symm

/-! ### Characterization of `min_fill_ordering`. -/

theorem min_fill_setup (L : List Factor) (Q : Variable) :
    (count_vars L Q).map Prod.fst
      = firstSeen ((L.flatMap Factor.get_scope).filter (fun s => decide (s ≠ Q))) ∧
    ((count_vars L Q).map Prod.fst).Nodup ∧
    (∀ p ∈ count_vars L Q,
      p.2 = ((L.flatMap Factor.get_scope).filter
        (fun s => decide (s ≠ Q))).count p.1) ∧
    (∀ w, w ∈ (count_vars L Q).map Prod.fst
      ↔ w ∈ (L.flatMap Factor.get_scope).filter (fun s => decide (s ≠ Q))) := by
  obtain ⟨h1, h2, h3, h4⟩ := bump_fold_invariant
    ((L.flatMap Factor.get_scope).filter (fun s => decide (s ≠ Q))) [] []
    (by simp) (by simp) (by simp)
  rw [count_vars_eq_foldl]
  exact ⟨h4, h1, by simpa using h2, by simpa using h3⟩

theorem min_fill_perm (L : List Factor) (Q : Variable) :
    (min_fill_ordering L Q).Perm ((count_vars L Q).map Prod.fst) :=
  List.Perm.map _ (sortByCount_perm (count_vars L Q))

theorem min_fill_mem (L : List Factor) (Q : Variable) (v : Variable) :
    v ∈ min_fill_ordering L Q ↔ (v ≠ Q ∧ ∃ f ∈ L, v ∈ f.scope) := by
  rw [(min_fill_perm L Q).mem_iff, (min_fill_setup L Q).2.2.2 v,
    List.mem_filter, List.mem_flatMap]
  simp only [Factor.get_scope, decide_eq_true_eq]
  tauto

theorem min_fill_nodup (L : List Factor) (Q : Variable) :
    (min_fill_ordering L Q).Nodup :=
  ((List.Perm.nodup_iff (min_fill_perm L Q)).mpr (min_fill_setup L Q).2.1)

theorem occ_count (Q v : Variable) (hv : v ≠ Q) :
    ∀ L : List Factor, (∀ f ∈ L, f.scope.Nodup) →
    ((L.flatMap Factor.get_scope).filter (fun s => decide (s ≠ Q))).count v
      = L.countP (fun f => decide (v ∈ f.scope)) := by
  intro L
  induction L with
  | nil => intro _; rfl
  | cons f L ih =>
      intro hnd
      rw [List.count_filter (by simp [hv]), List.flatMap_cons, List.count_append,
        List.countP_cons]
      have htail : (L.flatMap Factor.get_scope).count v
          = ((L.flatMap Factor.get_scope).filter (fun s => decide (s ≠ Q))).count v :=
        (List.count_filter (by simp [hv])).symm
      rw [htail, ih (fun g hg => hnd g (by simp [hg]))]
      by_cases hm : v ∈ f.scope
      · rw [show (f.get_scope.count v) = 1 from
          List.count_eq_one_of_mem (hnd f (by simp)) hm]
        simp [hm]
        omega
      · rw [show (f.get_scope.count v) = 0 from
          List.count_eq_zero_of_not_mem hm]
        simp [hm]

theorem posIn_eq_keys_indexOf :
    ∀ (C : List (Variable × Nat)), (C.map Prod.fst).Nodup →
      ∀ p ∈ C, (C.map Prod.fst).indexOf p.1 = posIn C p := by
  intro C
  induction C with
  | nil => intro _ p hp; simp at hp
  | cons q C ih =>
      intro hnd p hp
      rw [List.map_cons, List.indexOf_cons, posIn]
      by_cases hq : q = p
      · rw [if_pos hq]
        have hb : (q.1 == p.1) = true := by simp [hq]
        rw [hb]
        rfl
      · have hq1 : q.1 ≠ p.1 := by
          intro h1
          have hpC : p ∈ C := by
            rcases List.mem_cons.mp hp with h | h
            · exact absurd h.symm hq
            · exact h
          have : p.1 ∈ C.map Prod.fst := List.mem_map.mpr ⟨p, hpC, rfl⟩
          exact (List.nodup_cons.mp (by simpa using hnd)).1 (h1 ▸ this)
        have hb : (q.1 == p.1) = false := by simp [hq1]
        rw [if_neg hq, hb]
        simp only [cond_false]
        have hpC : p ∈ C := by
          rcases List.mem_cons.mp hp with h | h
          · exact absurd h.symm hq
          · exact h
        rw [ih (List.nodup_cons.mp (by simpa using hnd)).2 p hpC]

/-- C9 — confirmed: `min_fill_ordering` returns exactly the non-query
variables appearing in some factor's scope, with no duplicates and
never the query variable, sorted ascending by the number of factors
whose scope contains them (the per-occurrence dict count equals that
factor count when scopes are duplicate-free), with ties broken by the
first-encounter order of the scan over the factors (the function is
deterministic by construction: it is a function of its arguments). -/
theorem C9_min_fill_ordering_spec (L : List Factor) (Q : Variable)
    (hnd : ∀ f ∈ L, f.scope.Nodup) :
    Q ∉ min_fill_ordering L Q ∧
    (min_fill_ordering L Q).Nodup ∧
    (∀ v, v ∈ min_fill_ordering L Q ↔ (v ≠ Q ∧ ∃ f ∈ L, v ∈ f.scope)) ∧
    (min_fill_ordering L Q).Pairwise (fun a b =>
      L.countP (fun f => decide (a ∈ f.scope))
        ≤ L.countP (fun f => decide (b ∈ f.scope))) ∧
    (min_fill_ordering L Q).Pairwise (fun a b =>
      L.countP (fun f => decide (a ∈ f.scope))
          < L.countP (fun f => decide (b ∈ f.scope)) ∨
      (L.countP (fun f => decide (a ∈ f.scope))
          = L.countP (fun f => decide (b ∈ f.scope)) ∧
        (firstSeen ((L.flatMap Factor.get_scope).filter
          (fun s => decide (s ≠ Q)))).indexOf a
          ≤ (firstSeen ((L.flatMap Factor.get_scope).filter
            (fun s => decide (s ≠ Q)))).indexOf b)) := by
  obtain ⟨hkeys, hknd, hcnt, hkmem⟩ := min_fill_setup L Q
  have hCnd : (count_vars L Q).Nodup := List.Nodup.of_map Prod.fst hknd
  obtain ⟨m1, m2, m3⟩ := sortFold_stable (count_vars L Q) [] []
    (by simpa using hCnd) (by simp) List.Pairwise.nil List.Pairwise.nil
  have hSC : ∀ z ∈ sortByCount (count_vars L Q), z ∈ count_vars L Q := by
    intro z hz
    simpa using m1 z hz
  have hval : ∀ p ∈ sortByCount (count_vars L Q),
      p.2 = L.countP (fun f => decide (p.1 ∈ f.scope)) := by
    intro p hp
    have hpC : p ∈ count_vars L Q := hSC p hp
    have h1 : p.1 ∈ (count_vars L Q).map Prod.fst := List.mem_map.mpr ⟨p, hpC, rfl⟩
    have h2 : p.1 ∈ (L.flatMap Factor.get_scope).filter (fun s => decide (s ≠ Q)) :=
      (hkmem p.1).mp h1
    have hpQ : p.1 ≠ Q := by
      have := (List.mem_filter.mp h2).2
      simpa using this
    rw [hcnt p hpC, occ_count Q p.1 hpQ L hnd]
  have hidx : ∀ p ∈ sortByCount (count_vars L Q),
      (firstSeen ((L.flatMap Factor.get_scope).filter
        (fun s => decide (s ≠ Q)))).indexOf p.1 = posIn (count_vars L Q) p := by
    intro p hp
    rw [← hkeys]
    exact posIn_eq_keys_indexOf (count_vars L Q) hknd p (hSC p hp)
  refine ⟨?_, min_fill_nodup L Q, fun v => min_fill_mem L Q v, ?_, ?_⟩
  · intro hQ
    exact ((min_fill_mem L Q Q).mp hQ).1 rfl
  · rw [min_fill_ordering, List.pairwise_map]
    exact List.Pairwise.imp_of_mem
      (fun ha hb hr => by
        rw [← hval _ ha, ← hval _ hb]
        exact hr) m2
  · rw [min_fill_ordering, List.pairwise_map]
    have m3' : (sortByCount (count_vars L Q)).Pairwise (countRel (count_vars L Q)) := by
      simpa [sortByCount] using m3
    refine List.Pairwise.imp_of_mem (fun ha hb hr => ?_) m3'
    rcases hr with hr | ⟨hr1, hr2⟩
    · rw [← hval _ ha, ← hval _ hb]
      exact Or.inl hr
    · refine Or.inr ⟨by rw [← hval _ ha, ← hval _ hb]; exact hr1, ?_⟩
      rw [hidx _ ha, hidx _ hb]
      exact hr2

/-- C9 — witness at a concrete input. -/
theorem C9_witness :
    (∀ f ∈ [fA, fB, fAB], f.scope.Nodup) ∧
      vA ∉ min_fill_ordering [fA, fB, fAB] vA :=
  ⟨by decide, (C9_min_fill_ordering_spec [fA, fB, fAB] vA (by decide)).1⟩

/-! ### Sums over assignments. -/

theorem list_sum_map_add {α : Type} (l : List α) (f g : α → ℚ) :
    (l.map (fun x => f x + g x)).sum = (l.map f).sum + (l.map g).sum := by
  induction l with
  | nil => simp
  | cons a l ih =>
      simp only [List.map_cons, List.sum_cons, ih]
      ring

theorem list_sum_comm {α β : Type} (A : List α) (B : List β) (F : α → β → ℚ) :
    (A.map (fun x => (B.map (fun y => F x y)).sum)).sum
      = (B.map (fun y => (A.map (fun x => F x y)).sum)).sum := by
  induction A with
  | nil =>
      simp only [List.map_nil, List.sum_nil]
      induction B with
      | nil => rfl
      | cons b B ihb =>
          simp only [List.map_cons, List.sum_cons, ← ihb]
          ring
  | cons a A ih =>
      simp only [List.map_cons, List.sum_cons, ih, ← list_sum_map_add]

theorem upd_same (a : Variable → String) (v : Variable) (d : String) :
    upd a v d v = d := by simp [upd]

theorem upd_comm (a : Variable → String) {v w : Variable} (h : v ≠ w)
    (d e : String) : upd (upd a v d) w e = upd (upd a w e) v d := by
  funext x
  simp only [upd]
  by_cases hx : x = w
  · have hxv : ¬ x = v := fun hh => h (hh ▸ hx)
    rw [if_pos hx, if_neg hxv, if_pos hx]
  · rw [if_neg hx]
    by_cases hx' : x = v
    · rw [if_pos hx', if_pos hx']
    · rw [if_neg hx', if_neg hx', if_neg hx]

theorem sumOver_perm {l1 l2 : List Variable} (h : l1.Perm l2)
    (g : (Variable → String) → ℚ) :
    ∀ a, sumOver l1 g a = sumOver l2 g a := by
  induction h with
  | nil => intro a; rfl
  | cons v _ ih =>
      intro a
      simp only [sumOver]
      congr 1
      exact List.map_congr_left (fun d _ => ih _)
  | swap x y l =>
      intro a
      by_cases hxy : x = y
      · subst hxy; rfl
      · simp only [sumOver]
        rw [list_sum_comm y.dom x.dom
          (fun d e => sumOver l g (upd (upd a y d) x e))]
        congr 1
        refine List.map_congr_left (fun e _ => ?_)
        congr 1
        refine List.map_congr_left (fun d _ => ?_)
        rw [upd_comm a (fun hh => hxy hh.symm) d e]
  | trans _ _ ih1 ih2 => intro a; exact (ih1 a).trans (ih2 a)

/-! ### Products over working factor sets. -/

theorem get_value_upd_not_mem (f : Factor) {v : Variable} (h : v ∉ f.scope)
    (a : Variable → String) (d : String) :
    f.get_value (f.scope.map (upd a v d)) = f.get_value (f.scope.map a) := by
  congr 1
  exact List.map_congr_left (fun w hw => by
    have : w ≠ v := fun hx => h (hx ▸ hw)
    simp [upd, this])

theorem evalFactors_upd_not_mem {FS : List Factor} {v : Variable}
    (h : ∀ f ∈ FS, v ∉ f.scope) (a : Variable → String) (d : String) :
    evalFactors FS (upd a v d) = evalFactors FS a := by
  unfold evalFactors
  congr 1
  exact List.map_congr_left (fun f hf => get_value_upd_not_mem f (h f hf) a d)

theorem evalFactors_filter_split (FS : List Factor) (p : Factor → Bool)
    (a : Variable → String) :
    evalFactors FS a
      = evalFactors (FS.filter p) a * evalFactors (FS.filter (fun f => !p f)) a := by
  unfold evalFactors
  rw [← List.prod_append, ← List.map_append]
  exact (List.Perm.prod_eq (List.Perm.map _ (List.filter_append_perm p FS))).symm

theorem evalFactors_append (FS1 FS2 : List Factor) (a : Variable → String) :
    evalFactors (FS1 ++ FS2) a = evalFactors FS1 a * evalFactors FS2 a := by
  unfold evalFactors
  rw [List.map_append, List.prod_append]

theorem filter_not_mem_filter (FS : List Factor) (var : Variable) :
    FS.filter (fun f =>
        decide (f ∉ FS.filter (fun g => decide (var ∈ g.get_scope))))
      = FS.filter (fun f => !(decide (var ∈ f.get_scope))) := by
  apply List.filter_congr
  intro f hf
  simp [List.mem_filter, hf]

/-- Assignment-form value of `sum_out_variable`. -/
theorem sum_out_eval {f : Factor} {var : Variable} {F : Factor}
    (h : sum_out_variable f var = some F) (hnd : f.scope.Nodup)
    (a : Variable → String) (hgood : ∀ v ∈ f.scope, v ≠ var → a v ∈ v.dom) :
    F.get_value (F.scope.map a)
      = (var.dom.map (fun d => f.get_value (f.scope.map (upd a var d)))).sum := by
  have hmem : var ∈ f.scope := by
    by_contra hm
    simp [sum_out_variable, hm] at h
  rw [sum_out_variable_eq hmem] at h
  have hF : F = ⟨f.name, f.scope.erase var,
      (combos (f.scope.erase var)).map
        (fun t => (var.dom.map
          (fun val => f.get_value (extendTuple f.scope var val t))).sum)⟩ :=
    (Option.some.inj h).symm
  subst hF
  have ht : InDom (f.scope.erase var) ((f.scope.erase var).map a) := by
    refine inDom_map_self (fun v hv => ?_)
    have hv' := (List.Nodup.mem_erase_iff hnd).mp hv
    exact hgood v hv'.2 hv'.1
  rw [table_get_value ht]
  congr 1
  refine List.map_congr_left (fun d _ => ?_)
  rw [extendTuple_map hnd var a d]

/-! ### One elimination step. -/

theorem VE_cagan31_eq {FS : List Factor} {var : Variable} {M S : Factor}
    (hne : FS.filter (fun factor => decide (var ∈ factor.get_scope)) ≠ [])
    (hM : multiply_factors
      (FS.filter (fun factor => decide (var ∈ factor.get_scope))) = some M)
    (hS : sum_out_variable M var = some S) :
    VE_cagan31 FS var
      = some (FS.filter (fun factor =>
          decide (factor ∉ FS.filter
            (fun factor => decide (var ∈ factor.get_scope)))) ++ [S]) := by
  simp [VE_cagan31, hne, hM, hS]

theorem VE_cagan31_spec (FS : List Factor) (var : Variable)
    (hnd : ∀ f ∈ FS, f.scope.Nodup)
    (hvar : ∃ f ∈ FS, var ∈ f.scope) :
    ∃ FS', VE_cagan31 FS var = some FS' ∧ FS' ≠ [] ∧
      (∀ f ∈ FS', f.scope.Nodup) ∧
      (∀ f ∈ FS', ∀ v ∈ f.scope, v ≠ var ∧ ∃ g ∈ FS, v ∈ g.scope) ∧
      (∀ w, w ≠ var → (∃ g ∈ FS, w ∈ g.scope) → ∃ f ∈ FS', w ∈ f.scope) ∧
      (∀ a : Variable → String,
        (∀ g ∈ FS, ∀ v ∈ g.scope, v ≠ var → a v ∈ v.dom) →
        evalFactors FS' a
          = (var.dom.map (fun d => evalFactors FS (upd a var d))).sum) := by
  obtain ⟨f0, hf0, hf0v⟩ := hvar
  have hf0lst : f0 ∈ FS.filter (fun factor => decide (var ∈ factor.get_scope)) :=
    List.mem_filter.mpr ⟨hf0, by simp [Factor.get_scope, hf0v]⟩
  have hlstne : FS.filter (fun factor => decide (var ∈ factor.get_scope)) ≠ [] :=
    List.ne_nil_of_mem hf0lst
  have hlst_sub : ∀ f ∈ FS.filter (fun factor => decide (var ∈ factor.get_scope)),
      f ∈ FS ∧ var ∈ f.scope := by
    intro f hf
    have h := List.mem_filter.mp hf
    exact ⟨h.1, by simpa [Factor.get_scope] using h.2⟩
  obtain ⟨M, hM, hMnd, hMmem, hMval⟩ := multiply_factors_spec
    (FS.filter (fun factor => decide (var ∈ factor.get_scope))) hlstne
    (fun f hf => hnd f (hlst_sub f hf).1)
  have hvarM : var ∈ M.scope := (hMmem var).mpr ⟨f0, hf0lst, hf0v⟩
  obtain ⟨S, hSeq, hSscope⟩ :
      ∃ S, sum_out_variable M var = some S ∧ S.scope = M.scope.erase var :=
    ⟨_, sum_out_variable_eq hvarM, rfl⟩
  have hnew_eq : FS.filter (fun factor =>
      decide (factor ∉ FS.filter (fun factor => decide (var ∈ factor.get_scope))))
      = FS.filter (fun f => !(decide (var ∈ f.get_scope))) :=
    filter_not_mem_filter FS var
  have hnew_sub : ∀ f ∈ FS.filter (fun f => !(decide (var ∈ f.get_scope))),
      f ∈ FS ∧ var ∉ f.scope := by
    intro f hf
    have h := List.mem_filter.mp hf
    exact ⟨h.1, by simpa [Factor.get_scope] using h.2⟩
  refine ⟨_, VE_cagan31_eq hlstne hM hSeq, by simp, ?_, ?_, ?_, ?_⟩
  · intro f hf
    rw [hnew_eq] at hf
    rcases List.mem_append.mp hf with hf | hf
    · exact hnd f (hnew_sub f hf).1
    · have : f = S := by simpa using hf
      rw [this, hSscope]
      exact List.Nodup.erase var hMnd
  · intro f hf v hv
    rw [hnew_eq] at hf
    rcases List.mem_append.mp hf with hf | hf
    · obtain ⟨hfFS, hfvar⟩ := hnew_sub f hf
      exact ⟨fun hx => hfvar (hx ▸ hv), f, hfFS, hv⟩
    · have hfS : f = S := by simpa using hf
      rw [hfS, hSscope] at hv
      have hv' := (List.Nodup.mem_erase_iff hMnd).mp hv
      obtain ⟨g, hg, hgv⟩ := (hMmem v).mp hv'.2
      exact ⟨hv'.1, g, (hlst_sub g hg).1, hgv⟩
  · intro w hw ⟨g, hg, hgw⟩
    by_cases hvg : var ∈ g.scope
    · have hglst : g ∈ FS.filter (fun factor => decide (var ∈ factor.get_scope)) :=
        List.mem_filter.mpr ⟨hg, by simp [Factor.get_scope, hvg]⟩
      have hwM : w ∈ M.scope := (hMmem w).mpr ⟨g, hglst, hgw⟩
      refine ⟨S, ?_, ?_⟩
      · rw [hnew_eq]
        exact List.mem_append.mpr (Or.inr (by simp))
      · rw [hSscope]
        exact (List.Nodup.mem_erase_iff hMnd).mpr ⟨hw, hwM⟩
    · refine ⟨g, ?_, hgw⟩
      rw [hnew_eq]
      exact List.mem_append.mpr (Or.inl
        (List.mem_filter.mpr ⟨hg, by simp [Factor.get_scope, hvg]⟩))
  · intro a hgood
    rw [hnew_eq, evalFactors_append]
    have hSval : evalFactors [S] a = S.get_value (S.scope.map a) := by
      simp [evalFactors]
    have hgoodM : ∀ v ∈ M.scope, v ≠ var → a v ∈ v.dom := by
      intro v hv hvvar
      obtain ⟨g, hg, hgv⟩ := (hMmem v).mp hv
      exact hgood g (hlst_sub g hg).1 v hgv hvvar
    have hsum := sum_out_eval hSeq hMnd a hgoodM
    rw [hSval, hsum]
    have hMd : ∀ d ∈ var.dom, M.get_value (M.scope.map (upd a var d))
        = evalFactors (FS.filter (fun factor => decide (var ∈ factor.get_scope)))
            (upd a var d) := by
      intro d hd
      refine hMval (upd a var d) ?_
      intro f hf v hv
      by_cases hvv : v = var
      · rw [hvv, upd_same]
        exact hd
      · have : upd a var d v = a v := by simp [upd, hvv]
        rw [this]
        exact hgood f (hlst_sub f hf).1 v hv hvv
    rw [List.map_congr_left hMd]
    rw [← List.sum_map_mul_left]
    refine congrArg List.sum (List.map_congr_left (fun d hd => ?_))
    rw [evalFactors_filter_split FS
      (fun factor => decide (var ∈ factor.get_scope)) (upd a var d)]
    rw [evalFactors_upd_not_mem (fun f hf => (hnew_sub f hf).2) a d]
    ring

/-! ### The elimination loop of `VE`. -/

theorem elimination_loop (FS0 : List Factor) (Q : Variable) :
    ∀ (s elim : List Variable) (FS : List Factor),
    (elim ++ s).Nodup → Q ∉ s →
    (∀ f ∈ FS, f.scope.Nodup) →
    (∀ f ∈ FS, ∀ v ∈ f.scope, (∃ g ∈ FS0, v ∈ g.scope) ∧ v ∉ elim) →
    (∀ v ∈ s, ∃ f ∈ FS, v ∈ f.scope) →
    (∃ f ∈ FS, Q ∈ f.scope) →
    (∀ a : Variable → String,
      (∀ v, (∃ g ∈ FS0, v ∈ g.scope) → v ∉ elim → a v ∈ v.dom) →
      evalFactors FS a = sumOver elim.reverse (evalFactors FS0) a) →
    ∃ FS', List.foldlM VE_cagan31 FS s = some FS' ∧
      (∀ f ∈ FS', f.scope.Nodup) ∧
      (∀ f ∈ FS', ∀ v ∈ f.scope, (∃ g ∈ FS0, v ∈ g.scope) ∧ v ∉ elim ++ s) ∧
      (∃ f ∈ FS', Q ∈ f.scope) ∧
      (∀ a : Variable → String,
        (∀ v, (∃ g ∈ FS0, v ∈ g.scope) → v ∉ elim ++ s → a v ∈ v.dom) →
        evalFactors FS' a = sumOver (elim ++ s).reverse (evalFactors FS0) a) := by
  intro s
  induction s with
  | nil =>
      intro elim FS _ _ h3 h4 _ h6 h7
      refine ⟨FS, rfl, h3, by simpa using h4, h6, by simpa using h7⟩
  | cons u s ih =>
      intro elim FS hnds hQ h3 h4 h5 h6 h7
      have huQ : u ≠ Q := fun hx => hQ (by simp [hx])
      have hQs : Q ∉ s := fun hx => hQ (by simp [hx])
      have hu_elim : u ∉ elim := by
        have hd := List.disjoint_of_nodup_append hnds
        exact fun hx => hd hx (by simp)
      have hu_s : u ∉ s := by
        have := hnds
        rw [show elim ++ u :: s = (elim ++ [u]) ++ s by simp] at this
        have hd := List.disjoint_of_nodup_append this
        exact fun hx => hd (by simp) hx
      obtain ⟨FS1, hstep, _, k2, k3, k4, k5⟩ :=
        VE_cagan31_spec FS u h3 (h5 u (by simp))
      have hnds' : ((elim ++ [u]) ++ s).Nodup := by
        rw [show (elim ++ [u]) ++ s = elim ++ u :: s by simp]
        exact hnds
      have h4' : ∀ f ∈ FS1, ∀ v ∈ f.scope,
          (∃ g ∈ FS0, v ∈ g.scope) ∧ v ∉ elim ++ [u] := by
        intro f hf v hv
        obtain ⟨hvu, g, hg, hgv⟩ := k3 f hf v hv
        obtain ⟨hg0, hvelim⟩ := h4 g hg v hgv
        refine ⟨hg0, ?_⟩
        intro hx
        rcases List.mem_append.mp hx with hx | hx
        · exact hvelim hx
        · exact hvu (by simpa using hx)
      have h5' : ∀ v ∈ s, ∃ f ∈ FS1, v ∈ f.scope := by
        intro v hv
        have hvu : v ≠ u := fun hx => hu_s (hx ▸ hv)
        exact k4 v hvu (h5 v (by simp [hv]))
      have h6' : ∃ f ∈ FS1, Q ∈ f.scope := k4 Q (fun hx => huQ hx.symm) h6
      have h7' : ∀ a : Variable → String,
          (∀ v, (∃ g ∈ FS0, v ∈ g.scope) → v ∉ elim ++ [u] → a v ∈ v.dom) →
          evalFactors FS1 a = sumOver (elim ++ [u]).reverse (evalFactors FS0) a := by
        intro a hgood
        have hga : ∀ g ∈ FS, ∀ v ∈ g.scope, v ≠ u → a v ∈ v.dom := by
          intro g hg v hv hvu
          obtain ⟨hg0, hvelim⟩ := h4 g hg v hv
          refine hgood v hg0 ?_
          intro hx
          rcases List.mem_append.mp hx with hx | hx
          · exact hvelim hx
          · exact hvu (by simpa using hx)
        rw [k5 a hga]
        have hinner : ∀ d ∈ u.dom,
            evalFactors FS (upd a u d)
              = sumOver elim.reverse (evalFactors FS0) (upd a u d) := by
          intro d hd
          refine h7 (upd a u d) ?_
          intro v hv0 hvelim
          by_cases hvu : v = u
          · rw [hvu, upd_same]
            exact hd
          · have : upd a u d v = a v := by simp [upd, hvu]
            rw [this]
            refine hgood v hv0 ?_
            intro hx
            rcases List.mem_append.mp hx with hx | hx
            · exact hvelim hx
            · exact hvu (by simpa using hx)
        rw [List.map_congr_left hinner]
        have hrev : (elim ++ [u]).reverse = u :: elim.reverse := by simp
        rw [hrev]
        rfl
      obtain ⟨FS', hrest, m2, m3, m4, m5⟩ := ih (elim ++ [u]) FS1 hnds' hQs
        k2 h4' h5' h6' h7'
      have happ : (elim ++ [u]) ++ s = elim ++ u :: s := by simp
      refine ⟨FS', ?_, m2, ?_, m4, ?_⟩
      · rw [List.foldlM_cons, hstep]
        simpa using hrest
      · rw [← happ]
        exact m3
      · rw [← happ]
        exact m5

/-! ### C1: VE with no evidence against the brute-force reference. -/

theorem nodup_mem_iff_singleton {l : List Variable} {Q : Variable}
    (hnd : l.Nodup) (h : ∀ v, v ∈ l ↔ v = Q) : l = [Q] := by
  match l with
  | [] => exact absurd ((h Q).mpr rfl) (by simp)
  | a :: l' =>
      have ha : a = Q := (h a).mp (by simp)
      subst ha
      have hl' : l' = [] := by
        rw [List.eq_nil_iff_forall_not_mem]
        intro x hx
        have hxa : x = a := (h x).mp (by simp [hx])
        exact (List.nodup_cons.mp hnd).1 (hxa ▸ hx)
      rw [hl']

theorem ordered_perm_brute (L : List Factor) (Q : Variable) :
    (min_fill_ordering L Q).Perm
      ((firstSeen (L.flatMap Factor.scope)).filter (fun v => decide (v ≠ Q))) := by
  refine (min_fill_perm L Q).trans (List.Perm.of_eq ?_)
  rw [(min_fill_setup L Q).1]
  have hgs : Factor.get_scope = Factor.scope := rfl
  have h2 := firstSeenFrom_filter (fun v => decide (v ≠ Q))
    (L.flatMap Factor.get_scope) []
  simp only [List.filter_nil] at h2
  rw [hgs] at h2
  exact h2

/-- C1 — confirmed: for a network whose factors' scopes are
duplicate-free lists of network variables and a query variable
appearing in some factor's scope, `VE` with an empty evidence list
returns exactly the brute-force reference distribution: the product of
all factors, with every other variable of the joint summed out, read
off over the query domain in declared order and normalized. -/
theorem C1_VE_bruteforce (Net : BN) (Q : Variable)
    (hnd : ∀ f ∈ Net.Factors, f.scope.Nodup)
    (hvars : ∀ f ∈ Net.Factors, ∀ v ∈ f.scope, v ∈ Net.Variables)
    (hq : ∃ f ∈ Net.Factors, Q ∈ f.scope) :
    VE Net Q [] = some (bruteForceMarginal Net Q) := by
  obtain ⟨fq, hfq, hfqQ⟩ := hq
  obtain ⟨FSf, hloop, hfnd, hscope, hQf, heval⟩ := elimination_loop Net.Factors Q
    (min_fill_ordering Net.Factors Q) [] Net.Factors
    (by simpa using min_fill_nodup Net.Factors Q)
    (fun hx => ((min_fill_mem Net.Factors Q Q).mp hx).1 rfl)
    hnd
    (fun f hf v hv => ⟨⟨f, hf, hv⟩, by simp⟩)
    (fun v hv => ((min_fill_mem Net.Factors Q v).mp hv).2)
    ⟨fq, hfq, hfqQ⟩
    (fun a _ => rfl)
  obtain ⟨fq2, hfq2, hfq2Q⟩ := hQf
  have hfne : FSf ≠ [] := List.ne_nil_of_mem hfq2
  obtain ⟨last, hlast, hlnd, hlmem, hlval⟩ := multiply_factors_spec FSf hfne hfnd
  have hscQ : ∀ f ∈ FSf, ∀ v ∈ f.scope, v = Q := by
    intro f hf v hv
    obtain ⟨hg0, hnotin⟩ := hscope f hf v hv
    by_contra hvQ
    refine hnotin ?_
    simp only [List.nil_append]
    exact (min_fill_mem Net.Factors Q v).mpr ⟨hvQ, hg0⟩
  have hlscope : last.scope = [Q] := by
    refine nodup_mem_iff_singleton hlnd (fun v => ?_)
    constructor
    · intro hv
      obtain ⟨f, hf, hvf⟩ := (hlmem v).mp hv
      exact hscQ f hf v hvf
    · intro hv
      rw [hv]
      exact (hlmem Q).mpr ⟨fq2, hfq2, hfq2Q⟩
  have hVE : VE Net Q []
      = Option.bind (List.foldlM VE_cagan31 Net.Factors
          (min_fill_ordering Net.Factors Q))
        (fun factors₂ => Option.bind (mult_loop factors₂.reverse)
          (fun last_factor => some (normalize
            (Q.dom.map (fun dom => last_factor.get_value [dom]))))) := rfl
  rw [hVE, hloop, Option.some_bind,
    show mult_loop FSf.reverse = some last from hlast, Option.some_bind]
  refine congrArg some (congrArg normalize (List.map_congr_left (fun d hd => ?_)))
  have hstep1 : [d] = last.scope.map (upd (fun _ => ("")) Q d) := by
    rw [hlscope]
    simp [upd]
  rw [hstep1, hlval (upd (fun _ => ("")) Q d)
    (fun f hf v hv => by rw [hscQ f hf v hv, upd_same]; exact hd)]
  have hev := heval (upd (fun _ => ("")) Q d) (fun v hv0 hnotin => by
    by_cases hvQ : v = Q
    · rw [hvQ, upd_same]
      exact hd
    · exact absurd ((min_fill_mem Net.Factors Q v).mpr ⟨hvQ, hv0⟩)
        (by simpa using hnotin))
  rw [show (FSf.map (fun f => f.get_value
      (f.scope.map (upd (fun _ => ("")) Q d)))).prod
    = evalFactors FSf (upd (fun _ => ("")) Q d) from rfl]
  rw [hev]
  have hperm : (([] : List Variable) ++ min_fill_ordering Net.Factors Q).reverse.Perm
      ((firstSeen (Net.Factors.flatMap Factor.scope)).filter
        (fun v => decide (v ≠ Q))) := by
    simp only [List.nil_append]
    exact (List.reverse_perm _).trans (ordered_perm_brute Net.Factors Q)
  rw [sumOver_perm hperm (evalFactors Net.Factors) (upd (fun _ => ("")) Q d)]

/-- C1 — witness at a concrete two-variable network. -/
theorem C1_witness :
    (∃ f ∈ (BN.mk ("N") [vA, vB] [fA, fAB]).Factors, vA ∈ f.scope) ∧
      VE (BN.mk ("N") [vA, vB] [fA, fAB]) vA []
        = some (bruteForceMarginal (BN.mk ("N") [vA, vB] [fA, fAB]) vA) :=
  ⟨by decide, C1_VE_bruteforce (BN.mk ("N") [vA, vB] [fA, fAB]) vA
    (by decide) (by decide) (by decide)⟩

/-! ### C2 and C4: concrete sampler runs. -/

def vQ2 : Variable := ⟨10, ("Q2"), ["a", "b"]⟩

def vX2 : Variable := ⟨11, ("X2"), ["x", "y"]⟩

def fQ2 : Factor := ⟨("PQ2"), [vQ2], [1/2, 1/2]⟩

def fX2 : Factor := ⟨("PX2"), [vX2], [1/2, 1/2]⟩

def net2 : BN := ⟨("net2"), [vQ2, vX2], [fQ2, fX2]⟩

/-- A fixed random stream for one round on `net2`: the first draw picks
the second value of the query variable, the second draw picks the first
value of `vX2` (making the leftover loop index 0). -/
def stream2 : Nat → ℚ := fun k => if k = 0 then 3/5 else 1/4

theorem net2_round :
    sampleRound net2 vQ2 [] stream2 none 0 0
      = some ⟨1, 0, some ("b"), some fX2, 2⟩ := by
  norm_num [sampleRound, sampleVarStep, evidenceWeight, buildComb, chooseVal,
    net2, vQ2, vX2, fQ2, fX2, BN.factors, BN.variables, Factor.get_scope,
    Factor.get_value, encodeIndex, encodeIndexAux, Variable.value_index,
    Variable.domain_size, stream2, List.foldlM, List.mapM, List.mapM.loop,
    List.find?, List.foldl, Option.some_bind, Option.bind, List.lookup,
    List.getD, List.indexOf, List.findIdx, List.findIdx.go,
    show (("a" : String) == "b") = false from rfl,
    show (("x" : String) == "y") = false from rfl,
    show (("a" : String) == "a") = true from rfl,
    show (("x" : String) == "x") = true from rfl,
    show (("Q2" : String) == "X2") = false from rfl,
    show (("Q2" : String) == "Q2") = true from rfl,
    show (("X2" : String) == "X2") = true from rfl,
    cond_false, cond_true]

theorem net2_loop :
    sampleLoop net2 vQ2 [] stream2 1 0 ⟨[0, 0], 0, none, 0⟩
      = some ⟨[1, 0], 1, some fX2, 2⟩ := by
  rw [sampleLoop, net2_round]
  simp only [Option.bind_eq_bind, Option.some_bind]
  norm_num [accumulateRound, truthy, vQ2, List.getD, sampleLoop,
    Option.bind_eq_bind, Option.some_bind, List.set]
  decide

/-- C2 — the accumulation step evaluated at the failing input.  In the
sampled round the query variable receives the value at position 1 of
its domain, the last sampled variable's chosen index (the leftover
reused loop index `i`) is 0, and the round's weight 1 is added to
bucket 0 — not to bucket 1 as the claim requires — while the running
total does receive the weight. -/
theorem C2_bucket_misindex :
    sampleRound net2 vQ2 [] stream2 none 0 0
      = some ⟨1, 0, some ("b"), some fX2, 2⟩ ∧
    vQ2.dom.indexOf ("b") = 1 ∧
    sampleLoop net2 vQ2 [] stream2 1 0 ⟨[0, 0], 0, none, 0⟩
      = some ⟨[1, 0], 1, some fX2, 2⟩ :=
  ⟨net2_round, by decide, net2_loop⟩

def vE4 : Variable := ⟨20, ("E4"), ["e", "f"]⟩

def vQ4 : Variable := ⟨21, ("Q4"), ["a", "b"]⟩

/-- The prior factor of the evidence variable, with value 0 at the
observed value `e`: every sampling round then has importance weight
0. -/
def fE4 : Factor := ⟨("PE4"), [vE4], [0, 1]⟩

def fQ4 : Factor := ⟨("PQ4"), [vQ4], [1/2, 1/2]⟩

def net4 : BN := ⟨("net4"), [vE4, vQ4], [fE4, fQ4]⟩

theorem net4_round (cf : Option Factor) (round k : Nat) :
    sampleRound net4 vQ4 [(vE4, ("e"))] (fun _ => 1/2) cf round k
      = some ⟨0, 0, some ("a"), some fQ4, k + 1⟩ := by
  norm_num [sampleRound, sampleVarStep, evidenceWeight, buildComb, chooseVal,
    net4, vE4, vQ4, fE4, fQ4, BN.factors, BN.variables, Factor.get_scope,
    Factor.get_value, encodeIndex, encodeIndexAux, Variable.value_index,
    Variable.domain_size, List.foldlM, List.mapM, List.mapM.loop,
    List.find?, List.foldl, Option.some_bind, Option.bind, List.lookup,
    List.getD, List.indexOf, List.findIdx, List.findIdx.go,
    show (("a" : String) == "b") = false from rfl,
    show (("e" : String) == "f") = false from rfl,
    show (("a" : String) == "a") = true from rfl,
    show (("e" : String) == "e") = true from rfl,
    show (("Q4" : String) == "E4") = false from rfl,
    show (("Q4" : String) == "Q4") = true from rfl,
    show (("E4" : String) == "E4") = true from rfl,
    cond_false, cond_true]

theorem net4_loop : ∀ (n round k : Nat) (cf : Option Factor),
    ∃ s, sampleLoop net4 vQ4 [(vE4, ("e"))] (fun _ => 1/2) n round
        ⟨[0, 0], 0, cf, k⟩ = some s ∧ s.weights = [0, 0] ∧ s.total = 0 := by
  intro n
  induction n with
  | zero => intro round k cf; exact ⟨_, rfl, rfl, rfl⟩
  | succ n ih =>
      intro round k cf
      rw [sampleLoop, net4_round cf round k]
      simp only [Option.bind_eq_bind, Option.some_bind]
      have hacc : accumulateRound vQ4 ⟨[0, 0], 0, cf, k⟩
          ⟨0, 0, some ("a"), some fQ4, k + 1⟩
          = some ⟨[0, 0], 0, some fQ4, k + 1⟩ := by
        norm_num [accumulateRound, truthy, vQ4, List.getD, List.set]
      rw [hacc]
      simp only [Option.bind_eq_bind, Option.some_bind]
      exact ih (round + 1) (k + 1) (some fQ4)

/-- C4 — the final division of `SampleBN` evaluated on a network whose
evidence value has prior probability 0: every round's importance weight
is 0, so the running total after 1000 rounds is 0, and the unguarded
`weight / total` division raises `ZeroDivisionError` (the call produces
no distribution at all) rather than returning a list of zeros. -/
theorem C4_division_by_zero_crash :
    SampleBN net4 vQ4 [(vE4, ("e"))] (fun _ => 1/2) = none := by
  obtain ⟨s, hs, hw, ht⟩ := net4_loop 1000 0 0 none
  have hinit : (List.replicate vQ4.dom.length (0 : ℚ)) = [0, 0] := rfl
  show Option.bind (sampleLoop net4 vQ4 [(vE4, ("e"))] (fun _ => 1/2) 1000 0
      ⟨List.replicate vQ4.dom.length 0, 0, none, 0⟩)
    (fun s => s.weights.mapM (fun weight =>
      if s.total = 0 then none else some (weight / s.total))) = none
  rw [hinit, hs, Option.some_bind, hw, ht]
  norm_num [List.mapM, List.mapM.loop]

end BNet

example : (1 : ℚ) + 1 = 2 := by norm_num
